import Mathlib

/-!
# Verification of the parallel prime counter (`assignment.cpp`)

A shallow embedding of `modmul`, `modpow`, `isPrime`, `countPrimes` and
`parallelCountPrimes`, followed by the properties established about them.

Machine integers are mathematical integers; every place where the C++ code
narrows or may wrap is made explicit through `toInt32` / `toUInt64`.
C++ `%` and `/` on `int` truncate toward zero, hence `Int.tmod` / `Int.tdiv`.
-/

namespace Assignment

/-! ## Machine integers -/

/-- Value of a mathematical integer after conversion to a 32-bit two's
complement `int`. -/
def toInt32 (x : Int) : Int :=
  (x + 2147483648) % 4294967296 - 2147483648

/-- Value of a mathematical integer after conversion to `uint64_t`. -/
def toUInt64 (x : Int) : Nat :=
  (x % 18446744073709551616).toNat

/-- Membership in the range of a 32-bit signed `int`. -/
def isInt32 (x : Int) : Prop :=
  -2147483648 ≤ x ∧ x ≤ 2147483647

/-- Membership in the range of a 64-bit signed `int64_t`. -/
def isInt64 (x : Int) : Prop :=
  -9223372036854775808 ≤ x ∧ x ≤ 9223372036854775807

/-- The constant `THREAD_COUNT`. -/
def THREAD_COUNT : Int := 8

/-! ## Modular arithmetic -/

/-- The function `modmul`: the product is taken in `int64_t`, reduced with the
truncating `%`, and narrowed back to `int`. -/
def modmul (a b mod : Int) : Int :=
  toInt32 (Int.tmod (a * b) mod)

/-- The `while (exp)` loop of `modpow`; the first argument bounds the number of
iterations still allowed. -/
def modpowLoop : Nat → Int → Int → Int → Int → Int
  | 0, ans, _, _, _ => ans
  | fuel + 1, ans, base, exp, mod =>
    if exp = 0 then ans
    else
      modpowLoop fuel
        (if Int.tmod exp 2 = 1 then modmul ans base mod else ans)
        (modmul base base mod) (Int.tdiv exp 2) mod

/-- The function `modpow`. Halving `exp` reaches zero in at most `|exp|`
rounds, which is the iteration bound handed to the loop. -/
def modpow (base exp mod : Int) : Int :=
  modpowLoop exp.natAbs 1 base exp mod

/-! ## The primality test -/

/-- Trailing-zero count of a non-zero bit pattern, scanning at most `w` bits. -/
def ctzAux : Nat → Nat → Nat
  | 0, _ => 0
  | w + 1, x => if x % 2 = 1 then 0 else ctzAux w (x / 2) + 1

/-- The compiler builtin `__builtin_ctz` on the 32-bit pattern of its `int`
argument (the builtin is undefined at zero; here it yields 32). -/
def ctz (x : Int) : Nat :=
  ctzAux 32 (x % 4294967296).toNat

/-- The inner `for (int i = 0; i < s; ++i)` loop of `isPrime`, started at
index `i` with `k` iterations left; `false` is the early `return false`,
`true` means the loop ran to its end. -/
def innerLoop (n : Int) (s : Nat) : Nat → Nat → Int → Bool
  | 0, _, _ => true
  | k + 1, i, x =>
    let y := modmul x x n
    if y = 1 ∧ x ≠ 1 ∧ x ≠ n - 1 then false
    else if i = s - 1 ∧ y ≠ 1 then false
    else innerLoop n s k (i + 1) y

/-- The `for (int a : bases)` loop of `isPrime`: `break` when `a >= n`,
`false` as soon as the inner loop returns, `true` when falling through. -/
def basesLoop (n : Int) (s : Nat) (d : Int) : List Int → Bool
  | [] => true
  | a :: rest =>
    if a ≥ n then true
    else if innerLoop n s s 0 (modpow a d n) then basesLoop n s d rest
    else false

/-- The function `isPrime`. -/
def isPrime (n : Int) : Bool :=
  if n < 2 ∨ Int.tmod (Int.tmod n 6) 4 ≠ 1 then
    decide (Int.lor n 1 = 3)
  else
    let s := ctz (n - 1)
    let d := (n - 1) >>> s
    basesLoop n s d [2, 3, 5, 7]

/-! ## The range scanner and the shared aggregation state -/

/-- The state shared by all workers: `primeCount` (`std::atomic<int>`),
`primeSum` and `top10Min` (`std::atomic<uint64_t>`) and the vector
`top10Primes`. -/
structure Shared where
  primeCount : Int
  primeSum : Nat
  top10Min : Nat
  top10Primes : List Nat
  deriving DecidableEq

/-- The section of `countPrimes` executed under `top10Mutex`, on the vector:
`push_back`, `sort`, `erase(begin())`. -/
def lockedInsert (top : List Nat) (v : Nat) : List Nat :=
  (List.insertionSort (· ≤ ·) (top ++ [v])).tail

/-- The threshold test `i > top10Min.load()` followed by the locked section,
taken as one step; `top10Min` is refreshed from element 0 of the vector. -/
def offer (st : Shared) (v : Nat) : Shared :=
  if v > st.top10Min then
    let top := lockedInsert st.top10Primes v
    { st with top10Primes := top, top10Min := top.getD 0 0 }
  else st

/-- One iteration of the loop of `countPrimes` for the value `i`: the two
atomic additions wrap at the width of their type, the comparison with
`top10Min` is made in `uint64_t`. -/
def scanBody (st : Shared) (i : Int) : Shared :=
  if isPrime i then
    offer
      { st with
        primeCount := toInt32 (st.primeCount + 1)
        primeSum := (st.primeSum + toUInt64 i) % 18446744073709551616 }
      (toUInt64 i)
  else st

/-- The loop `for (int i = lo; i < hi; ++i)` of `countPrimes`, entered at `i`
with at most the given number of iterations left. -/
def countPrimesLoop : Nat → Shared → Int → Int → Shared
  | 0, st, _, _ => st
  | fuel + 1, st, i, hi =>
    if i < hi then countPrimesLoop fuel (scanBody st i) (i + 1) hi else st

/-- The function `countPrimes` on the shared state; the loop runs `hi - lo`
times when `lo < hi` and not at all otherwise. -/
def countPrimes (st : Shared) (lo hi : Int) : Shared :=
  countPrimesLoop (hi - lo).toNat st lo hi

/-! ## The parallel coordinator -/

/-- The expression `lo + (hi - lo) * i / THREAD_COUNT` in 32-bit `int`
arithmetic: every intermediate result is narrowed to `int`, the division
truncates. -/
def threadBound (lo hi i : Int) : Int :=
  toInt32 (lo + Int.tdiv (toInt32 (toInt32 (hi - lo) * i)) THREAD_COUNT)

/-- The value `threadLo` of thread `i`. -/
def threadLo (lo hi : Int) (i : Nat) : Int :=
  threadBound lo hi (i : Int)

/-- The value `threadHi` of thread `i`. -/
def threadHi (lo hi : Int) (i : Nat) : Int :=
  threadBound lo hi (toInt32 ((i : Int) + 1))

/-- A running worker: the loop variable of its `countPrimes` call and the
bound of its range. -/
structure Worker where
  i : Int
  hi : Int
  deriving DecidableEq

/-- The state of the accumulators when the threads are created. -/
def initShared : Shared :=
  { primeCount := 0, primeSum := 0, top10Min := 0, top10Primes := List.replicate 10 0 }

/-- The workers created by the `for (int i = 0; i < THREAD_COUNT; ++i)` loop,
each at the start of its range. -/
def spawnWorkers (lo hi : Int) : List Worker :=
  (List.range 8).map fun t => { i := threadLo lo hi t, hi := threadHi lo hi t }

/-- One scheduled step of a worker: one iteration of its loop, if any is left. -/
def stepWorker (w : Worker) (st : Shared) : Worker × Shared :=
  if w.i < w.hi then ({ w with i := w.i + 1 }, scanBody st w.i) else (w, st)

/-- Runs the workers in the order given by a schedule, a list of thread
indices; an index that names no thread is skipped. -/
def runSchedule : List Nat → List Worker → Shared → List Worker × Shared
  | [], ws, st => (ws, st)
  | t :: sched, ws, st =>
    match ws.get? t with
    | none => runSchedule sched ws st
    | some w =>
      let r := stepWorker w st
      runSchedule sched (ws.set t r.1) r.2

/-- The loop `for (std::thread &thr : threads) thr.join()`: each worker in turn
is run to the end of its range. -/
def joinAll : List Worker → Shared → Shared
  | [], st => st
  | w :: ws, st => joinAll ws (countPrimes st w.i w.hi)

/-- The function `parallelCountPrimes` under a schedule: the workers take
steps in the scheduled order, the joins let every worker finish, and the
tuple `(primeCount, primeSum, top10Primes)` is returned. -/
def parallelCountPrimes (sched : List Nat) (lo hi : Int) : Int × Nat × List Nat :=
  let r := runSchedule sched (spawnWorkers lo hi) initShared
  let st := joinAll r.1 r.2
  (st.primeCount, st.primeSum, st.top10Primes)

/-! ## Reference notions used in the statements -/

/-- The integers of the half-open range `[lo, hi)` in increasing order. -/
def intRange (lo hi : Int) : List Int :=
  (List.range (hi - lo).toNat).map fun (k : Nat) => lo + (k : Int)

/-- The values of `[lo, hi)` accepted by `isPrime`, in increasing order. -/
def acceptedIn (lo hi : Int) : List Nat :=
  ((intRange lo hi).filter isPrime).map Int.toNat

/-- Trial division from `k` upward, with at most the given number of
candidate divisors. -/
def trialLoop (n : Nat) : Nat → Nat → Bool
  | 0, _ => true
  | fuel + 1, k =>
    if n < k * k then true
    else if n % k = 0 then false
    else trialLoop n fuel (k + 1)

/-- Reference primality test by trial division up to the square root. -/
def trialDivision (n : Nat) : Bool :=
  decide (2 ≤ n) && trialLoop n n 2

/-- The values still to be scanned by a list of workers, worker by worker. -/
def pending (ws : List Worker) : List Int :=
  (ws.map fun w => intRange w.i w.hi).flatten

/-- The tracker holds the ten largest of the offered values `offered`: the
vector has ten entries, `top10Min` caches its first entry, and the sorted
list of everything offered ends with the vector. -/
def TopInv (st : Shared) (offered : List Nat) : Prop :=
  st.top10Primes.length = 10 ∧ st.top10Min = st.top10Primes.getD 0 0 ∧
    ∃ low, List.insertionSort (· ≤ ·) offered = low ++ st.top10Primes

/-! ## Natural-number counterparts of the loops of `isPrime` -/

/-- The inner loop of `isPrime` on natural numbers. -/
def innerLoopNat (n s : Nat) : Nat → Nat → Nat → Bool
  | 0, _, _ => true
  | k + 1, i, x =>
    let y := x * x % n
    if y = 1 ∧ x ≠ 1 ∧ x ≠ n - 1 then false
    else if i = s - 1 ∧ y ≠ 1 then false
    else innerLoopNat n s k (i + 1) y

/-- The loop over the bases on natural numbers, with `a ^ d % n` for `modpow`. -/
def basesLoopNat (n s d : Nat) : List Nat → Bool
  | [] => true
  | a :: rest =>
    if a ≥ n then true
    else if innerLoopNat n s s 0 (a ^ d % n) then basesLoopNat n s d rest
    else false

/-- The function `isPrime` on natural numbers. -/
def isPrimeNat (n : Nat) : Bool :=
  if n < 2 ∨ n % 6 % 4 ≠ 1 then
    decide (n ||| 1 = 3)
  else
    let s := ctzAux 32 (n - 1)
    let d := (n - 1) / 2 ^ s
    basesLoopNat n s d [2, 3, 5, 7]

/-- Agreement of `isPrimeNat` with trial division on the `count` numbers
starting at `start`. -/
def agreeOn : Nat → Nat → Bool
  | _, 0 => true
  | start, count + 1 =>
    (isPrimeNat start == trialDivision start) && agreeOn (start + 1) count

/-! ## Notions used in the statements on the fast path and the witness loop -/

/-- The guard of the first `if` of `isPrime`: when it holds, `isPrime` returns
`(n | 1) == 3` and the witness loop is not entered. -/
def onFastPath (n : Int) : Prop :=
  n < 2 ∨ Int.tmod (Int.tmod n 6) 4 ≠ 1

/-- The strong-probable-prime condition for the base `a`, with
`n - 1 = d * 2 ^ s`: `a ^ d` is 1 modulo `n`, or one of the `s` values
`a ^ (d * 2 ^ r)`, `r < s`, is `n - 1` modulo `n`. -/
def strongProbablePrime (n s d a : Nat) : Prop :=
  a ^ d % n = 1 ∨ ∃ r, r < s ∧ a ^ (d * 2 ^ r) % n = n - 1

/-! ## Machine integers and modular arithmetic: lemmas -/


theorem toInt32_of_isInt32 {x : Int} (h : isInt32 x) : toInt32 x = x := by
  unfold isInt32 at h
  unfold toInt32
  omega

theorem modmul_eq_emod {a b m : Int} (ha : 0 ≤ a) (hb : 0 ≤ b) (hm : 0 < m)
    (hm' : m ≤ 2147483647) : modmul a b m = (a * b) % m := by
  unfold modmul
  rw [Int.tmod_eq_emod (mul_nonneg ha hb) hm.le]
  apply toInt32_of_isInt32
  have h1 := Int.emod_nonneg (a * b) hm.ne'
  have h2 := Int.emod_lt_of_pos (a * b) hm
  constructor <;> omega

theorem modmul_nonneg {a b m : Int} (ha : 0 ≤ a) (hb : 0 ≤ b) (hm : 0 < m)
    (hm' : m ≤ 2147483647) : 0 ≤ modmul a b m := by
  rw [modmul_eq_emod ha hb hm hm']
  exact Int.emod_nonneg _ hm.ne'

theorem modmul_lt {a b m : Int} (ha : 0 ≤ a) (hb : 0 ≤ b) (hm : 0 < m)
    (hm' : m ≤ 2147483647) : modmul a b m < m := by
  rw [modmul_eq_emod ha hb hm hm']
  exact Int.emod_lt_of_pos _ hm

/-- Loop invariant of `modpow`: with enough iterations allowed, the loop
multiplies the accumulator by `base ^ exp` modulo `m` (and leaves it untouched
when `exp` is already zero). -/
theorem modpowLoop_spec (m : Int) (hm : 0 < m) (hm' : m ≤ 2147483647) :
    ∀ (fuel : Nat) (ans base : Int) (e : Nat), e ≤ fuel → 0 ≤ ans → 0 ≤ base →
      modpowLoop fuel ans base (e : Int) m
        = if e = 0 then ans else (ans * base ^ e) % m := by
  intro fuel
  induction fuel with
  | zero =>
    intro ans base e he _ _
    have : e = 0 := by omega
    subst this
    simp [modpowLoop]
  | succ fuel ih =>
    intro ans base e he hans hbase
    by_cases h0 : e = 0
    · subst h0
      simp [modpowLoop]
    · have hne : (e : Int) ≠ 0 := by exact_mod_cast h0
      rw [modpowLoop, if_neg hne, if_neg h0]
      have hdiv : Int.tdiv (e : Int) 2 = ((e / 2 : Nat) : Int) := by
        rw [Int.tdiv_eq_ediv (by positivity) (by norm_num)]
        norm_cast
      have hmod : Int.tmod (e : Int) 2 = ((e % 2 : Nat) : Int) := by
        rw [Int.tmod_eq_emod (by positivity) (by norm_num)]
        norm_cast
      rw [hdiv, hmod]
      have hb2 := modmul_nonneg hbase hbase hm hm'
      have hsq : modmul base base m = (base * base) % m := modmul_eq_emod hbase hbase hm hm'
      have hdecomp : e = 2 * (e / 2) + e % 2 := by omega
      by_cases hodd : e % 2 = 1
      · have hc : ((e % 2 : Nat) : Int) = 1 := by exact_mod_cast hodd
        rw [if_pos hc]
        have ha2 := modmul_nonneg hans hbase hm hm'
        rw [ih _ _ (e / 2) (by omega) ha2 hb2]
        have hmm : modmul ans base m = (ans * base) % m := modmul_eq_emod hans hbase hm hm'
        by_cases hz : e / 2 = 0
        · rw [if_pos hz, hmm]
          have : e = 1 := by omega
          subst this
          simp
        · rw [if_neg hz, hmm, hsq]
          have key : (ans * base % m * (base * base % m) ^ (e / 2)) ≡ ans * base ^ e [ZMOD m] := by
            have h1 : ans * base % m ≡ ans * base [ZMOD m] := Int.mod_modEq _ _
            have h2 : (base * base % m) ^ (e / 2) ≡ (base * base) ^ (e / 2) [ZMOD m] :=
              (Int.mod_modEq _ _).pow _
            have h3 : ans * base * (base * base) ^ (e / 2) = ans * base ^ e := by
              conv_rhs => rw [hdecomp, hodd]
              ring
            rw [← h3]
            exact h1.mul h2
          exact key
      · have hc : ¬ ((e % 2 : Nat) : Int) = 1 := by exact_mod_cast hodd
        rw [if_neg hc]
        rw [ih _ _ (e / 2) (by omega) hans hb2]
        have hz : ¬ e / 2 = 0 := by omega
        rw [if_neg hz, hsq]
        have key : (ans * (base * base % m) ^ (e / 2)) ≡ ans * base ^ e [ZMOD m] := by
          have h2 : (base * base % m) ^ (e / 2) ≡ (base * base) ^ (e / 2) [ZMOD m] :=
            (Int.mod_modEq _ _).pow _
          have h3 : ans * (base * base) ^ (e / 2) = ans * base ^ e := by
            have he2 : e % 2 = 0 := by omega
            conv_rhs => rw [hdecomp, he2]
            ring
          rw [← h3]
          exact (Int.ModEq.refl ans).mul h2
        exact key

theorem modpow_eq {base m : Int} (e : Nat) (hbase : 0 ≤ base) (hm : 0 < m)
    (hm' : m ≤ 2147483647) :
    modpow base (e : Int) m = if e = 0 then 1 else base ^ e % m := by
  unfold modpow
  rw [modpowLoop_spec m hm hm' _ 1 base e (by simp) (by norm_num) hbase]
  simp

/-- Allowing more iterations than `|exp|` never changes what the loop of
`modpow` computes: the bound handed over by `modpow` is never the reason the
loop stops. -/
theorem modpowLoop_fuel_irrelevant (m : Int) :
    ∀ (fuel : Nat) (ans base exp : Int), exp.natAbs ≤ fuel →
      modpowLoop fuel ans base exp m = modpowLoop exp.natAbs ans base exp m := by
  intro fuel
  induction fuel using Nat.strong_induction_on with
  | _ fuel ih =>
    intro ans base exp hle
    by_cases h0 : exp = 0
    · subst h0
      cases fuel <;> simp [modpowLoop]
    · obtain ⟨k, hk⟩ : ∃ k, exp.natAbs = k + 1 :=
        Nat.exists_eq_succ_of_ne_zero (by simpa using h0)
      obtain ⟨f, hf⟩ : ∃ f, fuel = f + 1 := Nat.exists_eq_succ_of_ne_zero (by omega)
      subst hf
      have hlt : (Int.tdiv exp 2).natAbs ≤ k := by
        have : (Int.tdiv exp 2).natAbs = exp.natAbs / 2 := by
          rw [Int.natAbs_tdiv]; rfl
        omega
      rw [hk, modpowLoop, modpowLoop, if_neg h0, if_neg h0]
      rw [ih f (by omega) _ _ _ (by omega), ih k (by omega) _ _ _ hlt]


/-! ### `isPrime` on natural numbers -/

theorem modmul_natCast (x y n : Nat) (hn : 0 < n) (hn' : n ≤ 2147483647) :
    modmul (x : Int) (y : Int) (n : Int) = ((x * y % n : Nat) : Int) := by
  rw [modmul_eq_emod (by positivity) (by positivity) (by exact_mod_cast hn)
    (by exact_mod_cast hn')]
  push_cast
  rfl

theorem modpow_natCast (a d n : Nat) (hn : 2 ≤ n) (hn' : n ≤ 2147483647) :
    modpow (a : Int) (d : Int) (n : Int) = ((a ^ d % n : Nat) : Int) := by
  rw [modpow_eq d (by positivity) (by exact_mod_cast (by omega : 0 < n))
    (by exact_mod_cast hn')]
  by_cases hd : d = 0
  · subst hd
    rw [if_pos rfl, pow_zero, Nat.mod_eq_of_lt (by omega)]
    rfl
  · rw [if_neg hd]
    push_cast
    rfl

theorem innerLoop_natCast (n s : Nat) (hn : 2 ≤ n) (hn' : n ≤ 2147483647) :
    ∀ (k i x : Nat),
      innerLoop (n : Int) s k i (x : Int) = innerLoopNat n s k i x := by
  intro k
  induction k with
  | zero => intro i x; rfl
  | succ k ih =>
    intro i x
    rw [innerLoop, innerLoopNat]
    rw [modmul_natCast x x n (by omega) hn', ih]
    have h1 : (((x * x % n : Nat) : Int) = 1) ↔ (x * x % n = 1) := by
      exact_mod_cast Iff.rfl
    have h2 : ((x : Int) ≠ 1) ↔ (x ≠ 1) := by
      exact_mod_cast Iff.rfl
    have h3 : ((x : Int) ≠ (n : Int) - 1) ↔ (x ≠ n - 1) := by
      constructor
      · intro h h'
        apply h
        rw [h']
        push_cast [Nat.cast_sub (by omega : 1 ≤ n)]
        rfl
      · intro h h'
        apply h
        omega
    simp only [h1, h2, h3, ne_eq]

theorem basesLoop_natCast (n s d : Nat) (hn : 2 ≤ n) (hn' : n ≤ 2147483647) :
    ∀ l : List Nat,
      basesLoop (n : Int) s (d : Int) (l.map fun (a : Nat) => (a : Int)) = basesLoopNat n s d l := by
  intro l
  induction l with
  | nil => rfl
  | cons a rest ih =>
    rw [List.map_cons, basesLoop, basesLoopNat, ih, modpow_natCast a d n hn hn',
      innerLoop_natCast n s hn hn']
    have h1 : ((a : Int) ≥ (n : Int)) ↔ (a ≥ n) := by
      exact_mod_cast Iff.rfl
    simp only [h1]

theorem ctz_pred_natCast (n : Nat) (h1 : 1 ≤ n) (h2 : n ≤ 2147483647) :
    ctz ((n : Int) - 1) = ctzAux 32 (n - 1) := by
  unfold ctz
  congr 1
  omega

theorem isPrime_natCast (n : Nat) (hn : n ≤ 2147483647) :
    isPrime (n : Int) = isPrimeNat n := by
  unfold isPrime isPrimeNat
  have hmod : Int.tmod (Int.tmod (n : Int) 6) 4 = ((n % 6 % 4 : Nat) : Int) := by
    rw [Int.tmod_eq_emod (Int.natCast_nonneg n) (by norm_num)]
    rw [Int.tmod_eq_emod (by omega) (by norm_num)]
    norm_cast
  have hc : ((n : Int) < 2 ∨ Int.tmod (Int.tmod (n : Int) 6) 4 ≠ 1) ↔
      (n < 2 ∨ n % 6 % 4 ≠ 1) := by
    rw [hmod]
    exact_mod_cast Iff.rfl
  by_cases h : n < 2 ∨ n % 6 % 4 ≠ 1
  · rw [if_pos (hc.mpr h), if_pos h]
    have hl : Int.lor (n : Int) 1 = ((n ||| 1 : Nat) : Int) := rfl
    rw [hl]
    have : (((n ||| 1 : Nat) : Int) = 3) ↔ (n ||| 1 = 3) := by
      exact_mod_cast Iff.rfl
    simp only [this]
  · rw [if_neg (fun h' => h (hc.mp h')), if_neg h]
    have hn2 : 2 ≤ n := by omega
    simp only []
    rw [ctz_pred_natCast n (by omega) hn]
    have hd : ((n : Int) - 1) >>> ctzAux 32 (n - 1)
        = (((n - 1) / 2 ^ ctzAux 32 (n - 1) : Nat) : Int) := by
      rw [Int.shiftRight_eq_div_pow]
      push_cast [Nat.cast_sub (by omega : 1 ≤ n)]
      rfl
    rw [hd]
    exact basesLoop_natCast n _ _ hn2 hn [2, 3, 5, 7]

/-! ### The trial-division reference -/

theorem trialLoop_iff (n : Nat) :
    ∀ (fuel k : Nat), trialLoop n fuel k = true ↔
      ∀ m, k ≤ m → m < k + fuel → m * m ≤ n → ¬ m ∣ n := by
  intro fuel
  induction fuel with
  | zero =>
    intro k
    simp only [trialLoop, true_iff]
    intro m h1 h2
    omega
  | succ fuel ih =>
    intro k
    rw [trialLoop]
    by_cases h1 : n < k * k
    · rw [if_pos h1]
      simp only [true_iff]
      intro m hm _ hmm
      have : k * k ≤ m * m := Nat.mul_le_mul hm hm
      omega
    · rw [if_neg h1]
      by_cases h2 : n % k = 0
      · rw [if_pos h2]
        simp only [Bool.false_eq_true, false_iff]
        intro h
        exact h k (le_refl k) (by omega) (by omega) (Nat.dvd_of_mod_eq_zero h2)
      · rw [if_neg h2, ih]
        constructor
        · intro h m hm1 hm2 hm3
          by_cases hk : m = k
          · subst hk
            intro hd
            exact h2 (Nat.mod_eq_zero_of_dvd hd)
          · exact h m (by omega) (by omega) hm3
        · intro h m hm1 hm2 hm3
          exact h m (by omega) (by omega) hm3

theorem trialDivision_iff_prime (n : Nat) : trialDivision n = true ↔ Nat.Prime n := by
  unfold trialDivision
  rw [Bool.and_eq_true, decide_eq_true_iff, trialLoop_iff, Nat.prime_def_le_sqrt]
  constructor
  · rintro ⟨h2, h⟩
    refine ⟨h2, fun m hm1 hm2 => ?_⟩
    have hmm : m * m ≤ n := Nat.le_sqrt.mp hm2
    have : m ≤ m * m := Nat.le_mul_self m
    exact h m hm1 (by omega) hmm
  · rintro ⟨h2, h⟩
    exact ⟨h2, fun m hm1 _ hm3 => h m hm1 (Nat.le_sqrt.mpr hm3)⟩

theorem agreeOn_spec :
    ∀ (count start : Nat), agreeOn start count = true →
      ∀ k, start ≤ k → k < start + count → isPrimeNat k = trialDivision k := by
  intro count
  induction count with
  | zero => intro start _ k h1 h2; omega
  | succ count ih =>
    intro start h k h1 h2
    rw [agreeOn, Bool.and_eq_true, beq_iff_eq] at h
    by_cases hk : k = start
    · subst hk
      exact h.1
    · exact ih (start + 1) h.2 k (by omega) (by omega)

theorem agreeOn_0 : agreeOn 0 500 = true := by
  decide!

theorem agreeOn_500 : agreeOn 500 500 = true := by
  decide!

theorem agreeOn_1000 : agreeOn 1000 500 = true := by
  decide!

theorem agreeOn_1500 : agreeOn 1500 500 = true := by
  decide!

theorem agreeOn_2000 : agreeOn 2000 500 = true := by
  decide!

theorem agreeOn_2500 : agreeOn 2500 500 = true := by
  decide!

theorem agreeOn_3000 : agreeOn 3000 500 = true := by
  decide!

theorem agreeOn_3500 : agreeOn 3500 500 = true := by
  decide!

theorem agreeOn_4000 : agreeOn 4000 500 = true := by
  decide!

theorem agreeOn_4500 : agreeOn 4500 500 = true := by
  decide!

theorem agreeOn_5000 : agreeOn 5000 500 = true := by
  decide!

theorem agreeOn_5500 : agreeOn 5500 500 = true := by
  decide!

theorem agreeOn_6000 : agreeOn 6000 500 = true := by
  decide!

theorem agreeOn_6500 : agreeOn 6500 500 = true := by
  decide!

theorem agreeOn_7000 : agreeOn 7000 500 = true := by
  decide!

theorem agreeOn_7500 : agreeOn 7500 500 = true := by
  decide!

theorem agreeOn_8000 : agreeOn 8000 500 = true := by
  decide!

theorem agreeOn_8500 : agreeOn 8500 500 = true := by
  decide!

theorem agreeOn_9000 : agreeOn 9000 500 = true := by
  decide!

theorem agreeOn_9500 : agreeOn 9500 500 = true := by
  decide!

theorem isPrimeNat_eq_trialDivision_of_lt (k : Nat) (hk : k < 10000) :
    isPrimeNat k = trialDivision k := by
  have c := fun (start : Nat) (h : agreeOn start 500 = true) (h1 : start ≤ k)
    (h2 : k < start + 500) => agreeOn_spec 500 start h k h1 h2
  by_cases h0 : k < 500
  · exact c 0 agreeOn_0 (by omega) (by omega)
  by_cases h500 : k < 1000
  · exact c 500 agreeOn_500 (by omega) (by omega)
  by_cases h1000 : k < 1500
  · exact c 1000 agreeOn_1000 (by omega) (by omega)
  by_cases h1500 : k < 2000
  · exact c 1500 agreeOn_1500 (by omega) (by omega)
  by_cases h2000 : k < 2500
  · exact c 2000 agreeOn_2000 (by omega) (by omega)
  by_cases h2500 : k < 3000
  · exact c 2500 agreeOn_2500 (by omega) (by omega)
  by_cases h3000 : k < 3500
  · exact c 3000 agreeOn_3000 (by omega) (by omega)
  by_cases h3500 : k < 4000
  · exact c 3500 agreeOn_3500 (by omega) (by omega)
  by_cases h4000 : k < 4500
  · exact c 4000 agreeOn_4000 (by omega) (by omega)
  by_cases h4500 : k < 5000
  · exact c 4500 agreeOn_4500 (by omega) (by omega)
  by_cases h5000 : k < 5500
  · exact c 5000 agreeOn_5000 (by omega) (by omega)
  by_cases h5500 : k < 6000
  · exact c 5500 agreeOn_5500 (by omega) (by omega)
  by_cases h6000 : k < 6500
  · exact c 6000 agreeOn_6000 (by omega) (by omega)
  by_cases h6500 : k < 7000
  · exact c 6500 agreeOn_6500 (by omega) (by omega)
  by_cases h7000 : k < 7500
  · exact c 7000 agreeOn_7000 (by omega) (by omega)
  by_cases h7500 : k < 8000
  · exact c 7500 agreeOn_7500 (by omega) (by omega)
  by_cases h8000 : k < 8500
  · exact c 8000 agreeOn_8000 (by omega) (by omega)
  by_cases h8500 : k < 9000
  · exact c 8500 agreeOn_8500 (by omega) (by omega)
  by_cases h9000 : k < 9500
  · exact c 9000 agreeOn_9000 (by omega) (by omega)
  exact c 9500 agreeOn_9500 (by omega) (by omega)

theorem isPrime_eq_trialDivision_of_lt (n : Int) (h0 : 0 ≤ n) (h1 : n < 10000) :
    isPrime n = trialDivision n.toNat := by
  obtain ⟨k, rfl⟩ := Int.eq_ofNat_of_zero_le h0
  have hk : k < 10000 := by exact_mod_cast h1
  rw [isPrime_natCast k (by omega), Int.toNat_natCast]
  exact isPrimeNat_eq_trialDivision_of_lt k hk

/-- C1: on `0 ≤ n < 10000`, `isPrime` agrees exactly with the trial-division
reference, and it returns `true` precisely on the prime numbers. -/
theorem isPrime_matches_reference_below_10000 (n : Int) (h0 : 0 ≤ n) (h1 : n < 10000) :
    isPrime n = trialDivision n.toNat ∧ (isPrime n = true ↔ Nat.Prime n.toNat) := by
  have h := isPrime_eq_trialDivision_of_lt n h0 h1
  exact ⟨h, by rw [h]; exact trialDivision_iff_prime _⟩

theorem isPrime_matches_reference_below_10000_witness :
    (0 : Int) ≤ 9973 ∧ (9973 : Int) < 10000 ∧
      isPrime 9973 = trialDivision (9973 : Int).toNat ∧
      (isPrime 9973 = true ↔ Nat.Prime (9973 : Int).toNat) :=
  ⟨by decide, by decide, isPrime_matches_reference_below_10000 9973 (by decide) (by decide)⟩

/-! ### Primes pass every round of the test -/

theorem ctzAux_dvd : ∀ (w x : Nat), 2 ^ ctzAux w x ∣ x := by
  intro w
  induction w with
  | zero => intro x; simp [ctzAux]
  | succ w ih =>
    intro x
    rw [ctzAux]
    by_cases h : x % 2 = 1
    · rw [if_pos h]; simp
    · rw [if_neg h, pow_succ]
      obtain ⟨c, hc⟩ := ih (x / 2)
      refine ⟨c, ?_⟩
      rw [mul_right_comm, ← hc]
      omega

theorem sq_mod_prime_eq_one {p x : Nat} (hp : Nat.Prime p) (hx : x < p)
    (h : x * x % p = 1) : x = 1 ∨ x = p - 1 := by
  have hp2 := hp.two_le
  have hx0 : x ≠ 0 := by
    rintro rfl
    simp at h
  have hdvd : p ∣ (x - 1) * (x + 1) := by
    have e : (x - 1) * (x + 1) = x * x - 1 := by
      obtain ⟨y, rfl⟩ : ∃ y, x = y + 1 := Nat.exists_eq_succ_of_ne_zero hx0
      simp only [Nat.add_sub_cancel]
      have : (y + 1) * (y + 1) = y * (y + 1 + 1) + 1 := by ring
      rw [this, Nat.add_sub_cancel]
    rw [e]
    have h1 : 1 ≤ x * x := Nat.one_le_iff_ne_zero.mpr (Nat.mul_ne_zero hx0 hx0)
    apply (Nat.modEq_iff_dvd' h1).mp
    unfold Nat.ModEq
    rw [h, Nat.mod_eq_of_lt (by omega)]
  rcases (Nat.Prime.dvd_mul hp).mp hdvd with h1 | h1
  · left
    have := Nat.eq_zero_of_dvd_of_lt h1 (by omega)
    omega
  · right
    have := Nat.le_of_dvd (by omega) h1
    omega

theorem fermat_mod_prime {p a : Nat} (hp : Nat.Prime p) (ha0 : 0 < a) (ha : a < p) :
    a ^ (p - 1) % p = 1 := by
  have hc : Nat.Coprime a p := (Nat.coprime_of_lt_prime ha0 ha hp).symm
  have h := Nat.ModEq.pow_totient hc
  rw [Nat.totient_prime hp] at h
  unfold Nat.ModEq at h
  rw [h, Nat.mod_eq_of_lt hp.one_lt]

theorem innerLoopNat_prime {p a d s : Nat} (hp : Nat.Prime p)
    (hfin : a ^ (d * 2 ^ s) % p = 1) :
    ∀ (k i x : Nat), i + k = s → x = a ^ (d * 2 ^ i) % p →
      innerLoopNat p s k i x = true := by
  intro k
  induction k with
  | zero => intro i x _ _; rfl
  | succ k ih =>
    intro i x hik hx
    have hxlt : x < p := by rw [hx]; exact Nat.mod_lt _ hp.pos
    have hy : x * x % p = a ^ (d * 2 ^ (i + 1)) % p := by
      rw [hx, ← Nat.mul_mod, ← pow_add, pow_succ]
      congr 2
      ring
    rw [innerLoopNat]
    have c1 : ¬ (x * x % p = 1 ∧ x ≠ 1 ∧ x ≠ p - 1) := by
      rintro ⟨h1, h2, h3⟩
      rcases sq_mod_prime_eq_one hp hxlt h1 with h | h
      · exact h2 h
      · exact h3 h
    have c2 : ¬ (i = s - 1 ∧ x * x % p ≠ 1) := by
      rintro ⟨h1, h2⟩
      apply h2
      have : i + 1 = s := by omega
      rw [hy, this, hfin]
    rw [if_neg c1, if_neg c2]
    exact ih (i + 1) _ (by omega) hy

theorem basesLoopNat_prime {p d s : Nat} (hp : Nat.Prime p) (hds : d * 2 ^ s = p - 1) :
    ∀ l : List Nat, (∀ a ∈ l, 0 < a) → basesLoopNat p s d l = true := by
  intro l
  induction l with
  | nil => intro _; rfl
  | cons a rest ih =>
    intro hl
    rw [basesLoopNat]
    by_cases ha : a ≥ p
    · rw [if_pos ha]
    · rw [if_neg ha]
      have ha0 : 0 < a := hl a (List.mem_cons_self _ _)
      have hfin : a ^ (d * 2 ^ s) % p = 1 := by
        rw [hds]
        exact fermat_mod_prime hp ha0 (by omega)
      rw [innerLoopNat_prime hp hfin s 0 _ (by omega) (by simp)]
      simp only [if_true]
      exact ih fun b hb => hl b (List.mem_cons_of_mem _ hb)

theorem isPrimeNat_of_prime {p : Nat} (hp : Nat.Prime p) : isPrimeNat p = true := by
  by_cases h2 : p = 2
  · subst h2; decide
  by_cases h3 : p = 3
  · subst h3; decide
  have h5 : 5 ≤ p := hp.five_le_of_ne_two_of_ne_three h2 h3
  have hn2 : ¬ 2 ∣ p := fun h => h2 ((Nat.prime_dvd_prime_iff_eq Nat.prime_two hp).mp h).symm
  have hn3 : ¬ 3 ∣ p := fun h => h3 ((Nat.prime_dvd_prime_iff_eq Nat.prime_three hp).mp h).symm
  have hc : ¬ (p < 2 ∨ p % 6 % 4 ≠ 1) := by omega
  unfold isPrimeNat
  rw [if_neg hc]
  apply basesLoopNat_prime hp
  · exact Nat.div_mul_cancel (ctzAux_dvd 32 (p - 1))
  · intro a ha
    simp only [List.mem_cons, List.mem_singleton, List.not_mem_nil, or_false] at ha
    omega

theorem isPrime_of_prime (n : Int) (hn : n ≤ 2147483647) (hp : Nat.Prime n.toNat) :
    isPrime n = true := by
  have h0 : 0 ≤ n := by
    by_contra h
    rw [Int.toNat_eq_zero.mpr (by omega)] at hp
    exact Nat.not_prime_zero hp
  obtain ⟨k, rfl⟩ := Int.eq_ofNat_of_zero_le h0
  rw [Int.toNat_natCast] at hp
  rw [isPrime_natCast k (by exact_mod_cast hn)]
  exact isPrimeNat_of_prime hp

/-! ### The partition of the range among the threads -/

theorem threadBound_eq (lo hi i : Int) (hlo : 1 ≤ lo) (hle : lo ≤ hi)
    (hhi : hi ≤ 2147483647) (hsz : (hi - lo) * 8 ≤ 2147483647)
    (hi0 : 0 ≤ i) (hi8 : i ≤ 8) :
    threadBound lo hi i = lo + (hi - lo) * i / 8 := by
  have h1 : 0 ≤ (hi - lo) * i := mul_nonneg (by omega) hi0
  have h2 : (hi - lo) * i ≤ (hi - lo) * 8 :=
    mul_le_mul_of_nonneg_left hi8 (by omega)
  unfold threadBound THREAD_COUNT
  rw [@toInt32_of_isInt32 (hi - lo) ⟨by omega, by omega⟩]
  generalize (hi - lo) * i = P at h1 h2 ⊢
  rw [@toInt32_of_isInt32 P ⟨by omega, by omega⟩]
  rw [Int.tdiv_eq_ediv h1 (by norm_num)]
  apply toInt32_of_isInt32
  constructor <;> omega

theorem threadLo_eq (lo hi : Int) (i : Nat) (hlo : 1 ≤ lo) (hle : lo ≤ hi)
    (hhi : hi ≤ 2147483647) (hsz : (hi - lo) * 8 ≤ 2147483647) (hi8 : i < 8) :
    threadLo lo hi i = lo + (hi - lo) * (i : Int) / 8 := by
  unfold threadLo
  exact threadBound_eq lo hi i hlo hle hhi hsz (by omega) (by omega)

theorem threadHi_eq (lo hi : Int) (i : Nat) (hlo : 1 ≤ lo) (hle : lo ≤ hi)
    (hhi : hi ≤ 2147483647) (hsz : (hi - lo) * 8 ≤ 2147483647) (hi8 : i < 8) :
    threadHi lo hi i = lo + (hi - lo) * ((i : Int) + 1) / 8 := by
  unfold threadHi
  rw [@toInt32_of_isInt32 ((i : Int) + 1) ⟨by omega, by omega⟩]
  exact threadBound_eq lo hi _ hlo hle hhi hsz (by omega) (by omega)

theorem threadHi_eq_threadLo_succ (lo hi : Int) (i : Nat) (hlo : 1 ≤ lo) (hle : lo ≤ hi)
    (hhi : hi ≤ 2147483647) (hsz : (hi - lo) * 8 ≤ 2147483647) (hi8 : i < 8) :
    threadHi lo hi i = lo + (hi - lo) * ((i + 1 : Nat) : Int) / 8 := by
  rw [threadHi_eq lo hi i hlo hle hhi hsz hi8]
  push_cast
  rfl

theorem bound_mono (lo hi : Int) (hle : lo ≤ hi) {i j : Nat} (hij : i ≤ j) :
    lo + (hi - lo) * (i : Int) / 8 ≤ lo + (hi - lo) * (j : Int) / 8 := by
  have h : (hi - lo) * (i : Int) ≤ (hi - lo) * (j : Int) :=
    mul_le_mul_of_nonneg_left (by exact_mod_cast hij) (by omega)
  have := Int.ediv_le_ediv (by norm_num : (0 : Int) < 8) h
  omega

theorem bound_exists_index (lo hi x : Int) (hx : lo ≤ x) :
    ∀ k : Nat, x < lo + (hi - lo) * (k : Int) / 8 →
      ∃ i, i < k ∧ lo + (hi - lo) * (i : Int) / 8 ≤ x ∧
        x < lo + (hi - lo) * ((i + 1 : Nat) : Int) / 8 := by
  intro k
  induction k with
  | zero =>
    intro h
    simp at h
    omega
  | succ k ih =>
    intro h
    by_cases hk : x < lo + (hi - lo) * (k : Int) / 8
    · obtain ⟨i, hi1, hi2⟩ := ih hk
      exact ⟨i, by omega, hi2⟩
    · exact ⟨k, by omega, by omega, h⟩

/-- Where the product `(hi - lo) * 8` stays in the range of `int`, the eight
sub-ranges start at `lo`, end at `hi`, have non-decreasing contiguous
boundaries, and every integer of `[lo, hi)` lies in exactly one of them,
while no sub-range contains anything outside `[lo, hi)`. -/
theorem thread_ranges_partition (lo hi : Int) (hlo : 1 ≤ lo) (hlt : lo < hi)
    (hhi : hi ≤ 2147483647) (hsz : (hi - lo) * 8 ≤ 2147483647) :
    threadLo lo hi 0 = lo ∧ threadHi lo hi 7 = hi ∧
    (∀ i, i < 8 → threadLo lo hi i ≤ threadHi lo hi i) ∧
    (∀ i, i < 7 → threadHi lo hi i = threadLo lo hi (i + 1)) ∧
    (∀ x, lo ≤ x → x < hi →
      ∃! i, i < 8 ∧ threadLo lo hi i ≤ x ∧ x < threadHi lo hi i) ∧
    (∀ i x, i < 8 → threadLo lo hi i ≤ x → x < threadHi lo hi i → lo ≤ x ∧ x < hi) := by
  have hL := fun i h => threadLo_eq lo hi i hlo hlt.le hhi hsz h
  have hH := fun i h => threadHi_eq_threadLo_succ lo hi i hlo hlt.le hhi hsz h
  have hb0 : lo + (hi - lo) * ((0 : Nat) : Int) / 8 = lo := by simp
  have hb8 : lo + (hi - lo) * ((8 : Nat) : Int) / 8 = hi := by
    push_cast
    omega
  refine ⟨?_, ?_, ?_, ?_, ?_, ?_⟩
  · rw [hL 0 (by omega)]; exact hb0
  · rw [hH 7 (by omega)]; exact hb8
  · intro i hi8
    rw [hL i hi8, hH i hi8]
    exact bound_mono lo hi hlt.le (by omega)
  · intro i hi7
    rw [hL (i + 1) (by omega), hH i (by omega)]
  · intro x hx1 hx2
    obtain ⟨i, hi8, hi1, hi2⟩ := bound_exists_index lo hi x hx1 8 (by rw [hb8]; exact hx2)
    refine ⟨i, ⟨hi8, by rw [hL i hi8]; exact hi1, by rw [hH i hi8]; exact hi2⟩, ?_⟩
    rintro j ⟨hj8, hj1, hj2⟩
    rw [hL j hj8] at hj1
    rw [hH j hj8] at hj2
    rcases Nat.lt_trichotomy i j with h | h | h
    · have := bound_mono lo hi hlt.le (by omega : i + 1 ≤ j)
      omega
    · exact h.symm
    · have := bound_mono lo hi hlt.le (by omega : j + 1 ≤ i)
      omega
  · intro i x hi8 h1 h2
    rw [hL i hi8] at h1
    rw [hH i hi8] at h2
    have m1 := bound_mono lo hi hlt.le (Nat.zero_le i)
    have m2 := bound_mono lo hi hlt.le (by omega : i + 1 ≤ 8)
    rw [hb0] at m1
    rw [hb8] at m2
    omega

theorem thread_ranges_partition_witness :
    (1 : Int) ≤ 1 ∧ (1 : Int) < 100000001 ∧ (100000001 : Int) ≤ 2147483647 ∧
    ((100000001 : Int) - 1) * 8 ≤ 2147483647 ∧
    (threadLo 1 100000001 0 = 1 ∧ threadHi 1 100000001 7 = 100000001 ∧
    (∀ i, i < 8 → threadLo 1 100000001 i ≤ threadHi 1 100000001 i) ∧
    (∀ i, i < 7 → threadHi 1 100000001 i = threadLo 1 100000001 (i + 1)) ∧
    (∀ x, (1 : Int) ≤ x → x < 100000001 →
      ∃! i, i < 8 ∧ threadLo 1 100000001 i ≤ x ∧ x < threadHi 1 100000001 i) ∧
    (∀ i x, i < 8 → threadLo 1 100000001 i ≤ x → x < threadHi 1 100000001 i →
      1 ≤ x ∧ x < 100000001)) :=
  ⟨by decide, by decide, by decide, by decide,
    thread_ranges_partition 1 100000001 (by decide) (by decide) (by decide) (by decide)⟩

/-- C6: the partition is lost once the `int` product `(hi - lo) * i`
overflows. For `lo = 1`, `hi = 268435457` the last boundary is `-268435455`
instead of `hi`, so the last thread gets an empty range: the integer
`268435456` and the value `268435399`, which `isPrime` accepts, both lie in
`[lo, hi)` and in no sub-range. -/
theorem thread_ranges_overflow_counterexample :
    isInt32 1 ∧ isInt32 268435457 ∧ (1 : Int) ≤ 1 ∧ (1 : Int) < 268435457 ∧
    threadHi 1 268435457 7 = -268435455 ∧
    threadHi 1 268435457 7 < threadLo 1 268435457 7 ∧
    (¬ ∃ i, i < 8 ∧ threadLo 1 268435457 i ≤ 268435456 ∧
      268435456 < threadHi 1 268435457 i) ∧
    isPrime 268435399 = true ∧
    (¬ ∃ i, i < 8 ∧ threadLo 1 268435457 i ≤ 268435399 ∧
      268435399 < threadHi 1 268435457 i) := by
  refine ⟨⟨by decide, by decide⟩, ⟨by decide, by decide⟩, by decide, by decide, by decide,
    by decide, ?_, by decide!, ?_⟩
  · rintro ⟨i, hi8, h1, h2⟩
    interval_cases i <;> revert h1 h2 <;> decide
  · rintro ⟨i, hi8, h1, h2⟩
    interval_cases i <;> revert h1 h2 <;> decide

/-! ### Ranges, the sequential scan and schedules -/

theorem intRange_of_le {lo hi : Int} (h : hi ≤ lo) : intRange lo hi = [] := by
  unfold intRange
  rw [Int.toNat_eq_zero.mpr (by omega)]
  rfl

theorem intRange_cons {lo hi : Int} (h : lo < hi) :
    intRange lo hi = lo :: intRange (lo + 1) hi := by
  unfold intRange
  obtain ⟨k, hk⟩ : ∃ k : Nat, (hi - lo).toNat = k + 1 :=
    Nat.exists_eq_succ_of_ne_zero (by omega)
  have hk' : (hi - (lo + 1)).toNat = k := by omega
  rw [hk, hk', List.range_succ_eq_map, List.map_cons, List.map_map]
  simp only [Nat.cast_zero, add_zero, List.cons.injEq, true_and]
  apply List.map_congr_left
  intro a _
  simp only [Function.comp, Nat.succ_eq_add_one, Nat.cast_add, Nat.cast_one]
  ring

theorem intRange_length (lo hi : Int) : (intRange lo hi).length = (hi - lo).toNat := by
  simp [intRange]

theorem mem_intRange {lo hi x : Int} : x ∈ intRange lo hi ↔ lo ≤ x ∧ x < hi := by
  unfold intRange
  simp only [List.mem_map, List.mem_range]
  constructor
  · rintro ⟨k, hk, rfl⟩
    omega
  · rintro ⟨h1, h2⟩
    exact ⟨(x - lo).toNat, by omega, by omega⟩

theorem intRange_append {a b c : Int} (hab : a ≤ b) (hbc : b ≤ c) :
    intRange a b ++ intRange b c = intRange a c := by
  obtain ⟨k, hk⟩ : ∃ k : Nat, k = (b - a).toNat := ⟨_, rfl⟩
  induction k generalizing a with
  | zero =>
    have : a = b := by omega
    subst this
    rw [intRange_of_le (le_refl a)]
    rfl
  | succ k ih =>
    have hlt : a < b := by omega
    rw [intRange_cons hlt, intRange_cons (by omega : a < c), List.cons_append,
      ih (by omega) (by omega)]

theorem intRange_sorted (lo hi : Int) : (intRange lo hi).Pairwise (· < ·) := by
  unfold intRange
  rw [List.pairwise_map]
  exact (List.pairwise_lt_range _).imp (by intro a b h; omega)

theorem countPrimesLoop_eq :
    ∀ (fuel : Nat) (st : Shared) (i hi : Int), (hi - i).toNat ≤ fuel →
      countPrimesLoop fuel st i hi = (intRange i hi).foldl scanBody st := by
  intro fuel
  induction fuel with
  | zero =>
    intro st i hi h
    rw [intRange_of_le (by omega)]
    rfl
  | succ fuel ih =>
    intro st i hi h
    rw [countPrimesLoop]
    by_cases hlt : i < hi
    · rw [if_pos hlt, intRange_cons hlt, List.foldl_cons]
      exact ih _ _ _ (by omega)
    · rw [if_neg hlt, intRange_of_le (by omega)]
      rfl

theorem countPrimes_eq_foldl (st : Shared) (lo hi : Int) :
    countPrimes st lo hi = (intRange lo hi).foldl scanBody st :=
  countPrimesLoop_eq _ st lo hi (le_refl _)

theorem joinAll_eq_foldl : ∀ (ws : List Worker) (st : Shared),
    joinAll ws st = (pending ws).foldl scanBody st := by
  intro ws
  induction ws with
  | nil => intro st; rfl
  | cons w ws ih =>
    intro st
    rw [joinAll, ih, countPrimes_eq_foldl]
    simp only [pending, List.map_cons, List.flatten_cons, List.foldl_append]

theorem pending_step : ∀ (ws : List Worker) (t : Nat) (w : Worker),
    ws.get? t = some w → w.i < w.hi →
      (pending ws).Perm (w.i :: pending (ws.set t { w with i := w.i + 1 })) := by
  intro ws
  induction ws with
  | nil => intro t w h; simp at h
  | cons w0 ws ih =>
    intro t w h hlt
    cases t with
    | zero =>
      simp only [List.get?_cons_zero, Option.some.injEq] at h
      subst h
      simp only [pending, List.set_cons_zero, List.map_cons, List.flatten_cons]
      rw [intRange_cons hlt]
      exact List.Perm.refl _
    | succ t =>
      simp only [List.get?_cons_succ] at h
      have := ih t w h hlt
      simp only [pending, List.set_cons_succ, List.map_cons, List.flatten_cons] at this ⊢
      exact (List.Perm.append_left _ this).trans List.perm_middle

theorem set_of_get? : ∀ (ws : List Worker) (t : Nat) (w : Worker),
    ws.get? t = some w → ws.set t w = ws := by
  intro ws
  induction ws with
  | nil => intro t w h; simp at h
  | cons w0 ws ih =>
    intro t w h
    cases t with
    | zero =>
      simp only [List.get?_cons_zero, Option.some.injEq] at h
      subst h
      rfl
    | succ t =>
      simp only [List.get?_cons_succ] at h
      rw [List.set_cons_succ, ih t w h]

/-- Every schedule, completed by the joins, scans some rearrangement of the
pending values, one loop body per value. -/
theorem runSchedule_joinAll : ∀ (sched : List Nat) (ws : List Worker) (st : Shared),
    ∃ xs : List Int, xs.Perm (pending ws) ∧
      joinAll (runSchedule sched ws st).1 (runSchedule sched ws st).2
        = xs.foldl scanBody st := by
  intro sched
  induction sched with
  | nil =>
    intro ws st
    exact ⟨pending ws, List.Perm.refl _, joinAll_eq_foldl ws st⟩
  | cons t sched ih =>
    intro ws st
    rw [runSchedule]
    cases hget : ws.get? t with
    | none => exact ih ws st
    | some w =>
      simp only []
      unfold stepWorker
      by_cases hlt : w.i < w.hi
      · rw [if_pos hlt]
        obtain ⟨xs, hperm, hfold⟩ := ih (ws.set t { w with i := w.i + 1 }) (scanBody st w.i)
        refine ⟨w.i :: xs, ?_, ?_⟩
        · exact (List.Perm.cons _ hperm).trans (pending_step ws t w hget hlt).symm
        · rw [List.foldl_cons]
          exact hfold
      · rw [if_neg hlt]
        simp only []
        rw [set_of_get? ws t w hget]
        exact ih ws st

theorem pending_spawnWorkers (lo hi : Int) (hlo : 1 ≤ lo) (hle : lo ≤ hi)
    (hhi : hi ≤ 2147483647) (hsz : (hi - lo) * 8 ≤ 2147483647) :
    pending (spawnWorkers lo hi) = intRange lo hi := by
  have hL := fun i h => threadLo_eq lo hi i hlo hle hhi hsz h
  have hH := fun i h => threadHi_eq_threadLo_succ lo hi i hlo hle hhi hsz h
  have hm := fun (i j : Nat) (h : i ≤ j) => bound_mono lo hi hle h
  have hb0 : lo + (hi - lo) * ((0 : Nat) : Int) / 8 = lo := by simp
  have hb8 : lo + (hi - lo) * ((8 : Nat) : Int) / 8 = hi := by
    push_cast
    omega
  have e : spawnWorkers lo hi = (List.range 8).map
      fun t => { i := threadLo lo hi t, hi := threadHi lo hi t } := rfl
  rw [e]
  simp only [pending, List.range, List.range.loop, List.map_cons, List.map_nil,
    List.flatten_cons, List.flatten_nil, List.append_nil]
  rw [hL 0 (by omega), hL 1 (by omega), hL 2 (by omega), hL 3 (by omega), hL 4 (by omega),
    hL 5 (by omega), hL 6 (by omega), hL 7 (by omega), hH 0 (by omega), hH 1 (by omega),
    hH 2 (by omega), hH 3 (by omega), hH 4 (by omega), hH 5 (by omega), hH 6 (by omega),
    hH 7 (by omega)]
  rw [intRange_append (hm 6 7 (by omega)) (hm 7 8 (by omega)),
    intRange_append (hm 5 6 (by omega)) (hm 6 8 (by omega)),
    intRange_append (hm 4 5 (by omega)) (hm 5 8 (by omega)),
    intRange_append (hm 3 4 (by omega)) (hm 4 8 (by omega)),
    intRange_append (hm 2 3 (by omega)) (hm 3 8 (by omega)),
    intRange_append (hm 1 2 (by omega)) (hm 2 8 (by omega)),
    intRange_append (hm 0 1 (by omega)) (hm 1 8 (by omega)), hb0, hb8]

/-! ### What a scan leaves in the accumulators -/

theorem toUInt64_of_nonneg {x : Int} (h0 : 0 ≤ x) (h1 : x ≤ 2147483647) :
    toUInt64 x = x.toNat := by
  unfold toUInt64
  rw [Int.emod_eq_of_lt h0 (by omega)]

theorem offer_primeCount (st : Shared) (v : Nat) : (offer st v).primeCount = st.primeCount := by
  unfold offer
  split <;> rfl

theorem offer_primeSum (st : Shared) (v : Nat) : (offer st v).primeSum = st.primeSum := by
  unfold offer
  split <;> rfl

/-- Counter and sum after scanning a list of values, as long as neither can
leave the range of its type. -/
theorem foldl_scanBody_count_sum : ∀ (xs : List Int) (st : Shared),
    (∀ x ∈ xs, 0 ≤ x ∧ x ≤ 2147483647) → 0 ≤ st.primeCount →
    st.primeCount + (xs.length : Int) ≤ 2147483647 →
    st.primeSum + xs.length * 2147483648 < 18446744073709551616 →
    (xs.foldl scanBody st).primeCount
        = st.primeCount + ((xs.filter isPrime).length : Int) ∧
    (xs.foldl scanBody st).primeSum
        = st.primeSum + ((xs.filter isPrime).map Int.toNat).sum := by
  intro xs
  induction xs with
  | nil => intro st _ _ _ _; simp
  | cons x xs ih =>
    intro st hx hc0 hc hs
    have hx0 := hx x (List.mem_cons_self _ _)
    have hxs : ∀ y ∈ xs, 0 ≤ y ∧ y ≤ 2147483647 :=
      fun y hy => hx y (List.mem_cons_of_mem _ hy)
    simp only [List.length_cons, Nat.cast_add, Nat.cast_one] at hc hs
    rw [List.foldl_cons]
    by_cases hp : isPrime x = true
    · have hcnt : (scanBody st x).primeCount = st.primeCount + 1 := by
        unfold scanBody
        rw [if_pos hp, offer_primeCount]
        exact toInt32_of_isInt32 ⟨by omega, by omega⟩
      have hsum : (scanBody st x).primeSum = st.primeSum + x.toNat := by
        unfold scanBody
        rw [if_pos hp, offer_primeSum, toUInt64_of_nonneg hx0.1 hx0.2]
        exact Nat.mod_eq_of_lt (by omega)
      obtain ⟨h1, h2⟩ := ih (scanBody st x) hxs (by omega) (by omega) (by omega)
      rw [h1, h2, hcnt, hsum, List.filter_cons_of_pos hp]
      simp only [List.length_cons, List.map_cons, List.sum_cons, Nat.cast_add, Nat.cast_one]
      constructor <;> omega
    · have hst : scanBody st x = st := by
        unfold scanBody
        rw [if_neg hp]
      obtain ⟨h1, h2⟩ := ih st hxs hc0 (by omega) (by omega)
      rw [hst, h1, h2, List.filter_cons_of_neg hp]
      exact ⟨rfl, rfl⟩

/-! ### The top-ten tracker -/

theorem orderedInsert_append_of_le (v h : Nat) (hv : v ≤ h) (T : List Nat) :
    ∀ L : List Nat, List.orderedInsert (· ≤ ·) v (L ++ h :: T)
      = List.orderedInsert (· ≤ ·) v L ++ h :: T := by
  intro L
  induction L with
  | nil => simp [List.orderedInsert, hv]
  | cons l L ih =>
    rw [List.cons_append, List.orderedInsert, List.orderedInsert]
    by_cases hl : v ≤ l
    · rw [if_pos hl, if_pos hl]
      rfl
    · rw [if_neg hl, if_neg hl, ih]
      rfl

theorem orderedInsert_append_of_lt (v : Nat) (R : List Nat) :
    ∀ L : List Nat, (∀ x ∈ L, x < v) → List.orderedInsert (· ≤ ·) v (L ++ R)
      = L ++ List.orderedInsert (· ≤ ·) v R := by
  intro L
  induction L with
  | nil => intro _; rfl
  | cons l L ih =>
    intro h
    have hl : ¬ v ≤ l := by
      have := h l (List.mem_cons_self _ _)
      omega
    rw [List.cons_append, List.orderedInsert, if_neg hl,
      ih fun x hx => h x (List.mem_cons_of_mem _ hx)]
    rfl

theorem insertionSort_eq_of_perm {l₁ l₂ : List Nat} (h : l₁.Perm l₂) :
    List.insertionSort (· ≤ ·) l₁ = List.insertionSort (· ≤ ·) l₂ :=
  List.eq_of_perm_of_sorted
    (((List.perm_insertionSort _ l₁).trans h).trans (List.perm_insertionSort _ l₂).symm)
    (List.sorted_insertionSort _ l₁) (List.sorted_insertionSort _ l₂)

/-- The locked section on a sorted vector `h :: T` with `h < v`: the smallest
entry `h` is the one erased and `v` takes its place in order. -/
theorem lockedInsert_of_lt (h v : Nat) (T : List Nat) (hs : (h :: T).Sorted (· ≤ ·))
    (hv : h < v) : lockedInsert (h :: T) v = List.orderedInsert (· ≤ ·) v T := by
  unfold lockedInsert
  have e : List.insertionSort (· ≤ ·) (h :: T ++ [v])
      = h :: List.orderedInsert (· ≤ ·) v T := by
    have hsorted : (h :: List.orderedInsert (· ≤ ·) v T).Sorted (· ≤ ·) := by
      have := List.Sorted.orderedInsert v (h :: T) hs
      rw [List.orderedInsert, if_neg (by omega)] at this
      exact this
    apply List.eq_of_perm_of_sorted _ (List.sorted_insertionSort _ _) hsorted
    refine (List.perm_insertionSort _ _).trans ?_
    refine List.perm_append_comm.trans ?_
    simp only [List.singleton_append]
    exact (List.Perm.swap h v T).trans (List.Perm.cons h (List.perm_orderedInsert _ v T).symm)
  rw [e]
  rfl

theorem TopInv_offer {st : Shared} {M : List Nat} (h : TopInv st M) (v : Nat) :
    TopInv (offer st v) (v :: M) := by
  obtain ⟨hlen, hmin, low, hlow⟩ := h
  obtain ⟨hd, T, hT⟩ : ∃ hd T, st.top10Primes = hd :: T := by
    cases hh : st.top10Primes with
    | nil => rw [hh] at hlen; simp at hlen
    | cons a b => exact ⟨a, b, rfl⟩
  have hmin' : st.top10Min = hd := by rw [hmin, hT]; rfl
  have hsortedM : (low ++ hd :: T).Sorted (· ≤ ·) := by
    rw [← hT, ← hlow]
    exact List.sorted_insertionSort _ _
  have hsortedT : (hd :: T).Sorted (· ≤ ·) := (List.pairwise_append.mp hsortedM).2.1
  have hlowle : ∀ x ∈ low, x ≤ hd := fun x hx =>
    (List.pairwise_append.mp hsortedM).2.2 x hx hd (List.mem_cons_self _ _)
  unfold offer
  by_cases hv : v > st.top10Min
  · rw [if_pos hv]
    rw [hmin'] at hv
    have hnew : lockedInsert st.top10Primes v = List.orderedInsert (· ≤ ·) v T := by
      rw [hT]
      exact lockedInsert_of_lt hd v T hsortedT hv
    refine ⟨?_, rfl, low ++ [hd], ?_⟩
    · simp only [hnew, List.orderedInsert_length]
      rw [hT] at hlen
      simpa using hlen
    · show List.insertionSort (· ≤ ·) (v :: M) = (low ++ [hd]) ++ lockedInsert st.top10Primes v
      rw [hnew, List.insertionSort, hlow, hT]
      rw [orderedInsert_append_of_lt v (hd :: T) low (fun x hx => by
        have := hlowle x hx
        omega)]
      rw [List.orderedInsert, if_neg (by omega)]
      simp
  · rw [if_neg hv]
    rw [hmin'] at hv
    refine ⟨hlen, hmin, List.orderedInsert (· ≤ ·) v low, ?_⟩
    rw [List.insertionSort, hlow, hT]
    exact orderedInsert_append_of_le v hd (by omega) T low

theorem TopInv_init : TopInv initShared (List.replicate 10 0) :=
  ⟨rfl, rfl, [], by decide⟩

theorem TopInv_scanBody {st : Shared} {M : List Nat} (h : TopInv st M) (x : Int)
    (hx0 : 0 ≤ x) (hx1 : x ≤ 2147483647) :
    TopInv (scanBody st x) (if isPrime x then x.toNat :: M else M) := by
  unfold scanBody
  by_cases hp : isPrime x = true
  · rw [if_pos hp, if_pos hp, toUInt64_of_nonneg hx0 hx1]
    exact @TopInv_offer { st with
        primeCount := toInt32 (st.primeCount + 1)
        primeSum := (st.primeSum + x.toNat) % 18446744073709551616 } M h _
  · rw [if_neg hp, if_neg hp]
    exact h

theorem foldl_scanBody_TopInv : ∀ (xs : List Int) (st : Shared) (M : List Nat),
    (∀ x ∈ xs, 0 ≤ x ∧ x ≤ 2147483647) → TopInv st M →
    ∃ M', M'.Perm (M ++ (xs.filter isPrime).map Int.toNat) ∧
      TopInv (xs.foldl scanBody st) M' := by
  intro xs
  induction xs with
  | nil =>
    intro st M _ h
    exact ⟨M, by simp, h⟩
  | cons x xs ih =>
    intro st M hx h
    have hx0 := hx x (List.mem_cons_self _ _)
    obtain ⟨M', hperm, hinv⟩ := ih (scanBody st x) _
      (fun y hy => hx y (List.mem_cons_of_mem _ hy)) (TopInv_scanBody h x hx0.1 hx0.2)
    refine ⟨M', hperm.trans ?_, hinv⟩
    by_cases hp : isPrime x = true
    · rw [if_pos hp, List.filter_cons_of_pos hp, List.map_cons]
      exact List.perm_middle.symm
    · rw [if_neg hp, List.filter_cons_of_neg hp]

/-! ### The result of the parallel scan -/

theorem parallel_eq_foldl (sched : List Nat) (lo hi : Int) (hlo : 1 ≤ lo) (hle : lo ≤ hi)
    (hhi : hi ≤ 2147483647) (hsz : (hi - lo) * 8 ≤ 2147483647) :
    ∃ xs : List Int, xs.Perm (intRange lo hi) ∧
      parallelCountPrimes sched lo hi
        = ((xs.foldl scanBody initShared).primeCount,
           (xs.foldl scanBody initShared).primeSum,
           (xs.foldl scanBody initShared).top10Primes) := by
  obtain ⟨xs, hperm, hfold⟩ := runSchedule_joinAll sched (spawnWorkers lo hi) initShared
  rw [pending_spawnWorkers lo hi hlo hle hhi hsz] at hperm
  refine ⟨xs, hperm, ?_⟩
  unfold parallelCountPrimes
  simp only []
  rw [hfold]

theorem perm_intRange_bounds {xs : List Int} {lo hi : Int} (hperm : xs.Perm (intRange lo hi))
    (hlo : 1 ≤ lo) (hhi : hi ≤ 2147483647) : ∀ x ∈ xs, 0 ≤ x ∧ x ≤ 2147483647 := by
  intro x hx
  have := mem_intRange.mp (hperm.mem_iff.mp hx)
  omega

theorem perm_count_sum {xs : List Int} {lo hi : Int} (hperm : xs.Perm (intRange lo hi))
    (hlo : 1 ≤ lo) (hhi : hi ≤ 2147483647) (hsz : (hi - lo) * 8 ≤ 2147483647) :
    (xs.foldl scanBody initShared).primeCount
        = (((intRange lo hi).filter isPrime).length : Int) ∧
    (xs.foldl scanBody initShared).primeSum = (acceptedIn lo hi).sum := by
  have hlen : xs.length = (hi - lo).toNat := by
    rw [hperm.length_eq, intRange_length]
  obtain ⟨h1, h2⟩ := foldl_scanBody_count_sum xs initShared
    (perm_intRange_bounds hperm hlo hhi) (le_refl _)
    (by rw [hlen]; show (0 : Int) + _ ≤ _; omega)
    (by rw [hlen]; show 0 + _ < _; omega)
  rw [h1, h2]
  constructor
  · show (0 : Int) + _ = _
    rw [zero_add, (hperm.filter isPrime).length_eq]
  · show 0 + _ = _
    rw [zero_add]
    exact ((hperm.filter isPrime).map Int.toNat).sum_eq

theorem acceptedIn_sorted (lo hi : Int) (hlo : 0 ≤ lo) : (acceptedIn lo hi).Sorted (· < ·) := by
  unfold acceptedIn
  show List.Pairwise _ _
  rw [List.pairwise_map]
  have h := (intRange_sorted lo hi).filter isPrime
  refine List.Pairwise.imp_of_mem ?_ h
  intro a b ha _ hab
  have := mem_intRange.mp (List.mem_of_mem_filter ha)
  omega

theorem zeros_append_sorted {P : List Nat} (hP : P.Sorted (· < ·)) :
    (List.replicate 10 0 ++ P).Sorted (· ≤ ·) := by
  show List.Pairwise _ _
  rw [List.pairwise_append]
  refine ⟨by decide, hP.imp (fun h => Nat.le_of_lt h), ?_⟩
  intro a ha b _
  rw [List.eq_of_mem_replicate ha]
  exact Nat.zero_le b

/-- The vector returned after any schedule: the last ten entries of ten zeros
followed by the accepted values in increasing order. -/
theorem parallel_top10_eq (sched : List Nat) (lo hi : Int) (hlo : 1 ≤ lo) (hle : lo ≤ hi)
    (hhi : hi ≤ 2147483647) (hsz : (hi - lo) * 8 ≤ 2147483647) :
    (parallelCountPrimes sched lo hi).2.2
      = (List.replicate 10 0 ++ acceptedIn lo hi).drop (acceptedIn lo hi).length := by
  obtain ⟨xs, hperm, hres⟩ := parallel_eq_foldl sched lo hi hlo hle hhi hsz
  rw [hres]
  obtain ⟨M, hM, hlen, _, low, hlow⟩ := foldl_scanBody_TopInv xs initShared
    (List.replicate 10 0) (perm_intRange_bounds hperm hlo hhi) TopInv_init
  have hM' : M.Perm (List.replicate 10 0 ++ acceptedIn lo hi) :=
    hM.trans (List.Perm.append_left _ ((hperm.filter isPrime).map Int.toNat))
  have hsort : List.insertionSort (· ≤ ·) M = List.replicate 10 0 ++ acceptedIn lo hi := by
    rw [insertionSort_eq_of_perm hM']
    exact (zeros_append_sorted (acceptedIn_sorted lo hi (by omega))).insertionSort_eq
  rw [hsort] at hlow
  have hl : low.length = (acceptedIn lo hi).length := by
    have := congrArg List.length hlow
    simp only [List.length_append, List.length_replicate] at this
    omega
  show (xs.foldl scanBody initShared).top10Primes = _
  rw [hlow, ← hl, List.drop_left]

/-! ### Claims on `modmul`, `modpow` and `isPrime` -/

/-- C3: `isPrime` never declares a prime composite: every prime below `2^31`
is accepted. -/
theorem isPrime_accepts_every_prime (n : Int) (hn : n ≤ 2147483647)
    (hp : Nat.Prime n.toNat) : isPrime n = true :=
  isPrime_of_prime n hn hp

theorem isPrime_accepts_every_prime_witness :
    (65537 : Int) ≤ 2147483647 ∧ Nat.Prime (65537 : Int).toNat ∧
      isPrime 65537 = true :=
  ⟨by decide, (by norm_num : Nat.Prime 65537),
    isPrime_accepts_every_prime 65537 (by decide) (by norm_num : Nat.Prime 65537)⟩

/-- C4: for `1 ≤ m ≤ 2^31 - 1` and `0 ≤ a, b < m`, `modmul a b m` is exactly
`(a * b) mod m`, lies in `[0, m)`, and the product `a * b` formed in
`int64_t` is within the range of that type. -/
theorem modmul_correct (a b m : Int) (hm1 : 1 ≤ m) (hm2 : m ≤ 2147483647)
    (ha0 : 0 ≤ a) (ha : a < m) (hb0 : 0 ≤ b) (hb : b < m) :
    modmul a b m = (a * b) % m ∧ 0 ≤ modmul a b m ∧ modmul a b m < m ∧
      isInt64 (a * b) := by
  refine ⟨modmul_eq_emod ha0 hb0 (by omega) hm2, modmul_nonneg ha0 hb0 (by omega) hm2,
    modmul_lt ha0 hb0 (by omega) hm2, ?_, ?_⟩
  · have := mul_nonneg ha0 hb0
    omega
  · have h1 : a * b ≤ 2147483647 * 2147483647 :=
      mul_le_mul (by omega) (by omega) hb0 (by norm_num)
    omega

theorem modmul_correct_witness :
    (1 : Int) ≤ 2147483647 ∧ (2147483647 : Int) ≤ 2147483647 ∧
    (0 : Int) ≤ 2147483646 ∧ (2147483646 : Int) < 2147483647 ∧
    (modmul 2147483646 2147483646 2147483647
        = (2147483646 * 2147483646) % 2147483647 ∧
      0 ≤ modmul 2147483646 2147483646 2147483647 ∧
      modmul 2147483646 2147483646 2147483647 < 2147483647 ∧
      isInt64 (2147483646 * 2147483646)) :=
  ⟨by decide, by decide, by decide, by decide,
    modmul_correct 2147483646 2147483646 2147483647 (by decide) (by decide) (by decide)
      (by decide) (by decide) (by decide)⟩

/-- C5 (as stated) fails for the modulus 1 and the exponent 0: `modpow 0 0 1`
is `1`, which is neither `0 ^ 0 mod 1 = 0` nor a value of `[0, 1)`. -/
theorem modpow_mod_one_counterexample :
    (1 : Int) ≤ 1 ∧ (0 : Int) ≤ 0 ∧ (0 : Int) < 1 ∧
    modpow 0 0 1 = 1 ∧ ((0 : Int) ^ (0 : Int).toNat) % 1 = 0 ∧
    modpow 0 0 1 ≠ ((0 : Int) ^ (0 : Int).toNat) % 1 ∧ ¬ modpow 0 0 1 < 1 := by
  decide

/-- C5 (as amended): for `1 ≤ m ≤ 2^31 - 1`, `0 ≤ base < m` and `exp ≥ 0`,
except when `m = 1` and `exp = 0` together, `modpow base exp m` is
`base ^ exp mod m`, a value of `[0, m)`. -/
theorem modpow_correct (base exp m : Int) (hm1 : 1 ≤ m) (hm2 : m ≤ 2147483647)
    (hb0 : 0 ≤ base) (_hb : base < m) (he : 0 ≤ exp) (hne : 2 ≤ m ∨ 1 ≤ exp) :
    modpow base exp m = base ^ exp.toNat % m ∧ 0 ≤ modpow base exp m ∧
      modpow base exp m < m := by
  obtain ⟨e, rfl⟩ := Int.eq_ofNat_of_zero_le he
  have hval : modpow base (e : Int) m = base ^ e % m := by
    rw [modpow_eq e hb0 (by omega) hm2]
    by_cases h0 : e = 0
    · subst h0
      have hm : 2 ≤ m := by
        rcases hne with h | h
        · exact h
        · simp at h
      rw [if_pos rfl, pow_zero, Int.emod_eq_of_lt (by norm_num) (by omega)]
    · rw [if_neg h0]
  rw [Int.toNat_natCast, hval]
  exact ⟨rfl, Int.emod_nonneg _ (by omega), Int.emod_lt_of_pos _ (by omega)⟩

theorem modpow_correct_witness :
    (1 : Int) ≤ 1000000007 ∧ (1000000007 : Int) ≤ 2147483647 ∧ (0 : Int) ≤ 7 ∧
    (7 : Int) < 1000000007 ∧ (0 : Int) ≤ 1000000006 ∧
    ((2 : Int) ≤ 1000000007 ∨ (1 : Int) ≤ 1000000006) ∧
    (modpow 7 1000000006 1000000007 = 7 ^ (1000000006 : Int).toNat % 1000000007 ∧
      0 ≤ modpow 7 1000000006 1000000007 ∧
      modpow 7 1000000006 1000000007 < 1000000007) :=
  ⟨by decide, by decide, by decide, by decide, by decide, Or.inl (by decide),
    modpow_correct 7 1000000006 1000000007 (by decide) (by decide) (by decide) (by decide)
      (by decide) (Or.inl (by decide))⟩

/-! ### Claims on the parallel scan -/

/-- C7: for `1 ≤ lo ≤ hi` with `(hi - lo) * 8 ≤ 2^31 - 1`, under every
schedule of the eight workers the returned count is the number of `i` in
`[lo, hi)` with `isPrime i`, the returned sum is the sum of those `i`, and
both are what a single `countPrimes` scan of `[lo, hi)` produces. -/
theorem parallel_count_sum (sched : List Nat) (lo hi : Int) (hlo : 1 ≤ lo) (hle : lo ≤ hi)
    (hhi : hi ≤ 2147483647) (hsz : (hi - lo) * 8 ≤ 2147483647) :
    (parallelCountPrimes sched lo hi).1 = (((intRange lo hi).filter isPrime).length : Int) ∧
    (parallelCountPrimes sched lo hi).2.1 = (acceptedIn lo hi).sum ∧
    (parallelCountPrimes sched lo hi).1 = (countPrimes initShared lo hi).primeCount ∧
    (parallelCountPrimes sched lo hi).2.1 = (countPrimes initShared lo hi).primeSum := by
  obtain ⟨xs, hperm, hres⟩ := parallel_eq_foldl sched lo hi hlo hle hhi hsz
  obtain ⟨h1, h2⟩ := perm_count_sum hperm hlo hhi hsz
  obtain ⟨h3, h4⟩ := perm_count_sum (List.Perm.refl (intRange lo hi)) hlo hhi hsz
  rw [hres, countPrimes_eq_foldl]
  exact ⟨h1, h2, h1.trans h3.symm, h2.trans h4.symm⟩

theorem parallel_count_sum_witness :
    (1 : Int) ≤ 1 ∧ (1 : Int) ≤ 30 ∧ (30 : Int) ≤ 2147483647 ∧
    ((30 : Int) - 1) * 8 ≤ 2147483647 ∧
    ((parallelCountPrimes [7, 0, 3, 3, 1, 7, 2, 9, 0] 1 30).1
        = (((intRange 1 30).filter isPrime).length : Int) ∧
      (parallelCountPrimes [7, 0, 3, 3, 1, 7, 2, 9, 0] 1 30).2.1 = (acceptedIn 1 30).sum ∧
      (parallelCountPrimes [7, 0, 3, 3, 1, 7, 2, 9, 0] 1 30).1
        = (countPrimes initShared 1 30).primeCount ∧
      (parallelCountPrimes [7, 0, 3, 3, 1, 7, 2, 9, 0] 1 30).2.1
        = (countPrimes initShared 1 30).primeSum) :=
  ⟨by decide, by decide, by decide, by decide,
    parallel_count_sum [7, 0, 3, 3, 1, 7, 2, 9, 0] 1 30 (by decide) (by decide) (by decide)
      (by decide)⟩

/-- C8: for `1 ≤ lo ≤ hi` with `(hi - lo) * 8 ≤ 2^31 - 1`, under every
schedule the returned vector has ten entries in ascending order; the values
accepted in `[lo, hi)` being listed in strictly increasing order, the vector
is the last ten of them when there are at least ten, and otherwise the zeros
that are left followed by all of them. -/
theorem parallel_top10 (sched : List Nat) (lo hi : Int) (hlo : 1 ≤ lo) (hle : lo ≤ hi)
    (hhi : hi ≤ 2147483647) (hsz : (hi - lo) * 8 ≤ 2147483647) :
    (parallelCountPrimes sched lo hi).2.2.length = 10 ∧
    (parallelCountPrimes sched lo hi).2.2.Sorted (· ≤ ·) ∧
    (acceptedIn lo hi).Sorted (· < ·) ∧
    (10 ≤ (acceptedIn lo hi).length →
      (parallelCountPrimes sched lo hi).2.2
        = (acceptedIn lo hi).drop ((acceptedIn lo hi).length - 10)) ∧
    ((acceptedIn lo hi).length < 10 →
      (parallelCountPrimes sched lo hi).2.2
        = List.replicate (10 - (acceptedIn lo hi).length) 0 ++ acceptedIn lo hi) := by
  have htop := parallel_top10_eq sched lo hi hlo hle hhi hsz
  have hP := acceptedIn_sorted lo hi (by omega)
  rw [htop]
  refine ⟨?_, ?_, hP, ?_, ?_⟩
  · rw [List.length_drop, List.length_append, List.length_replicate]
    omega
  · exact (zeros_append_sorted hP).sublist (List.drop_sublist _ _)
  · intro h
    obtain ⟨k, hk⟩ : ∃ k, (acceptedIn lo hi).length = 10 + k := ⟨_, (Nat.add_sub_cancel' h).symm⟩
    have h10 : (List.replicate 10 (0 : Nat)).length = 10 := List.length_replicate _ _
    have hdrop := @List.drop_append _ (List.replicate 10 (0 : Nat)) (acceptedIn lo hi) k
    rw [h10] at hdrop
    rw [hk, Nat.add_sub_cancel_left]
    exact hdrop
  · intro h
    rw [List.drop_append_of_le_length (by simp; omega), List.drop_replicate]

theorem parallel_top10_witness :
    (1 : Int) ≤ 1 ∧ (1 : Int) ≤ 30 ∧ (30 : Int) ≤ 2147483647 ∧
    ((30 : Int) - 1) * 8 ≤ 2147483647 ∧
    ((parallelCountPrimes [5, 5, 0, 2, 7, 1] 1 30).2.2.length = 10 ∧
    (parallelCountPrimes [5, 5, 0, 2, 7, 1] 1 30).2.2.Sorted (· ≤ ·) ∧
    (acceptedIn 1 30).Sorted (· < ·) ∧
    (10 ≤ (acceptedIn 1 30).length →
      (parallelCountPrimes [5, 5, 0, 2, 7, 1] 1 30).2.2
        = (acceptedIn 1 30).drop ((acceptedIn 1 30).length - 10)) ∧
    ((acceptedIn 1 30).length < 10 →
      (parallelCountPrimes [5, 5, 0, 2, 7, 1] 1 30).2.2
        = List.replicate (10 - (acceptedIn 1 30).length) 0 ++ acceptedIn 1 30)) :=
  ⟨by decide, by decide, by decide, by decide,
    parallel_top10 [5, 5, 0, 2, 7, 1] 1 30 (by decide) (by decide) (by decide) (by decide)⟩


/-! ### The range scanned by `main` -/

theorem acceptedIn_append {a b c : Int} (hab : a ≤ b) (hbc : b ≤ c) :
    acceptedIn a c = acceptedIn a b ++ acceptedIn b c := by
  unfold acceptedIn
  rw [← intRange_append hab hbc, List.filter_append, List.map_append]

theorem acceptedIn_main_tail : acceptedIn 99999989 100000001 = [99999989] := by
  decide!

theorem isPrime_above_largest (n : Int) (h1 : 99999989 < n) (h2 : n ≤ 100000000) :
    isPrime n = false := by
  have hmem : n ∈ intRange 99999990 100000001 := mem_intRange.mpr ⟨by omega, by omega⟩
  have hnil : acceptedIn 99999990 100000001 = [] := by decide!
  unfold acceptedIn at hnil
  rw [List.map_eq_nil_iff, List.filter_eq_nil_iff] at hnil
  simpa using hnil n hmem

theorem getLast?_top_of_append (P : List Nat) (q : Nat) :
    ((List.replicate 10 0 ++ (P ++ [q])).drop (P ++ [q]).length).getLast? = some q := by
  have hlen : ¬ (List.replicate 10 0 ++ (P ++ [q])).length ≤ (P ++ [q]).length := by
    rw [List.length_append, List.length_replicate]
    omega
  rw [List.getLast?_drop, if_neg hlen, ← List.append_assoc, List.getLast?_append]
  rfl

/-- C9: for the range scanned by `main`, under every schedule the last entry
of the returned vector is `99999989`; `isPrime` accepts `99999989` and
rejects every `n` with `99999989 < n ≤ 100000000`. -/
theorem main_largest_top10_entry (sched : List Nat) :
    (parallelCountPrimes sched 1 100000001).2.2.getLast? = some 99999989 ∧
    isPrime 99999989 = true ∧
    ∀ n : Int, 99999989 < n → n ≤ 100000000 → isPrime n = false := by
  refine ⟨?_, by decide!, isPrime_above_largest⟩
  rw [parallel_top10_eq sched 1 100000001 (by decide) (by decide) (by decide) (by decide)]
  rw [acceptedIn_append (by decide : (1 : Int) ≤ 99999989)
    (by decide : (99999989 : Int) ≤ 100000001), acceptedIn_main_tail]
  exact getLast?_top_of_append _ _


/-! ### The scenario `[1, 30)` -/

theorem acceptedIn_one_thirty :
    acceptedIn 1 30 = [2, 3, 5, 7, 11, 13, 17, 19, 23, 29] := by
  decide!

theorem filter_length_eq_acceptedIn (lo hi : Int) :
    ((intRange lo hi).filter isPrime).length = (acceptedIn lo hi).length := by
  unfold acceptedIn
  rw [List.length_map]

/-- C11 (as stated) fails on the count: the scan of `[1, 30)` returns the
count 10, not 9. -/
theorem scan_one_thirty_count_counterexample :
    (parallelCountPrimes [] 1 30).1 = 10 ∧ (parallelCountPrimes [] 1 30).1 ≠ 9 := by
  decide!

/-- C11 (as amended): under every schedule the scan of `[1, 30)` returns the
count 10, the sum 129, which is the exact sum of the values accepted in
`[1, 30)`, and the vector of all ten accepted values in ascending order,
which leaves no room for a padding zero. -/
theorem scan_one_thirty (sched : List Nat) :
    (parallelCountPrimes sched 1 30).1 = 10 ∧
    (parallelCountPrimes sched 1 30).2.1 = 129 ∧
    (parallelCountPrimes sched 1 30).2.1 = (acceptedIn 1 30).sum ∧
    (parallelCountPrimes sched 1 30).2.2 = [2, 3, 5, 7, 11, 13, 17, 19, 23, 29] ∧
    (parallelCountPrimes sched 1 30).2.2
      = List.replicate (10 - (acceptedIn 1 30).length) 0 ++ acceptedIn 1 30 := by
  obtain ⟨xs, hperm, hres⟩ := parallel_eq_foldl sched 1 30 (by decide) (by decide)
    (by decide) (by decide)
  obtain ⟨h1, h2⟩ := perm_count_sum hperm (by decide) (by decide) (by decide)
  have htop := parallel_top10_eq sched 1 30 (by decide) (by decide) (by decide) (by decide)
  rw [filter_length_eq_acceptedIn] at h1
  rw [htop, hres]
  simp only []
  rw [h1, h2, acceptedIn_one_thirty]
  decide

/-! ### The fast path of `isPrime` -/

theorem nat_lor_one_eq_three_iff (k : Nat) : k ||| 1 = 3 ↔ k = 2 ∨ k = 3 := by
  constructor
  · intro h
    have hlt : k < 2 ^ 2 := by
      apply Nat.lt_pow_two_of_testBit
      intro i hi
      have h3 : (3 : Nat).testBit i = false :=
        Nat.testBit_lt_two_pow (lt_of_lt_of_le (by decide : 3 < 2 ^ 2)
          (Nat.pow_le_pow_right (by decide) hi))
      rw [← h, Nat.testBit_or, Bool.or_eq_false_iff] at h3
      exact h3.1
    have hk : k < 4 := hlt
    interval_cases k
    · exact absurd h (by decide)
    · exact absurd h (by decide)
    · exact Or.inl rfl
    · exact Or.inr rfl
  · rintro (rfl | rfl) <;> decide

theorem int_lor_one_eq_three_iff (n : Int) : Int.lor n 1 = 3 ↔ n = 2 ∨ n = 3 := by
  cases n with
  | ofNat k =>
    have hl : Int.lor (Int.ofNat k) 1 = ((k ||| 1 : Nat) : Int) := rfl
    rw [hl]
    have e1 : (((k ||| 1 : Nat) : Int) = 3) ↔ (k ||| 1 = 3) := by exact_mod_cast Iff.rfl
    have e2 : (Int.ofNat k = 2) ↔ (k = 2) := by
      show ((k : Int) = 2) ↔ _
      exact_mod_cast Iff.rfl
    have e3 : (Int.ofNat k = 3) ↔ (k = 3) := by
      show ((k : Int) = 3) ↔ _
      exact_mod_cast Iff.rfl
    rw [e1, e2, e3]
    exact nat_lor_one_eq_three_iff k
  | negSucc m =>
    have hl : Int.lor (Int.negSucc m) 1 = Int.negSucc (Nat.ldiff m 1) := rfl
    rw [hl]
    constructor
    · intro h
      have := Int.negSucc_lt_zero (Nat.ldiff m 1)
      omega
    · intro h
      have := Int.negSucc_lt_zero m
      omega

theorem isPrime_of_onFastPath {n : Int} (h : onFastPath n) :
    isPrime n = decide (Int.lor n 1 = 3) := by
  unfold onFastPath at h
  unfold isPrime
  rw [if_pos h]

theorem isPrime_of_not_onFastPath {n : Int} (h : ¬ onFastPath n) :
    isPrime n = basesLoop n (ctz (n - 1)) ((n - 1) >>> ctz (n - 1)) [2, 3, 5, 7] := by
  unfold onFastPath at h
  unfold isPrime
  rw [if_neg h]

theorem isPrime_fast_iff {n : Int} (h : onFastPath n) :
    isPrime n = true ↔ n = 2 ∨ n = 3 := by
  rw [isPrime_of_onFastPath h, decide_eq_true_iff]
  exact int_lor_one_eq_three_iff n

theorem guard_iff_dvd {n : Int} (h2 : 2 ≤ n) :
    Int.tmod (Int.tmod n 6) 4 ≠ 1 ↔ (2 ∣ n ∨ 3 ∣ n) := by
  have e1 : Int.tmod n 6 = n % 6 := Int.tmod_eq_emod (by omega) (by norm_num)
  have e2 : Int.tmod (n % 6) 4 = n % 6 % 4 :=
    Int.tmod_eq_emod (Int.emod_nonneg _ (by norm_num)) (by norm_num)
  rw [e1, e2]
  omega

/-- C12 (as stated) fails at `n = 2`: it is on the fast path, it is not 3, and
`isPrime` returns `true` for it. -/
theorem fast_path_two_counterexample :
    (2 : Int) ≥ 2 ∧ Int.tmod (Int.tmod 2 6) 4 ≠ 1 ∧ isPrime 2 = true ∧ (2 : Int) ≠ 3 := by
  decide

/-- C12 (as amended): for `n ≥ 2`, the fast path is taken exactly by the
multiples of 2 and of 3, and on it `isPrime` returns `true` exactly for
`n = 2` and `n = 3`. -/
theorem fast_path_result (n : Int) (h2 : 2 ≤ n) :
    (Int.tmod (Int.tmod n 6) 4 ≠ 1 ↔ (2 ∣ n ∨ 3 ∣ n)) ∧
    (Int.tmod (Int.tmod n 6) 4 ≠ 1 → (isPrime n = true ↔ n = 2 ∨ n = 3)) :=
  ⟨guard_iff_dvd h2, fun h => isPrime_fast_iff (Or.inr h)⟩

theorem fast_path_result_witness :
    (2 : Int) ≤ 2147483646 ∧
    ((Int.tmod (Int.tmod 2147483646 6) 4 ≠ 1 ↔ ((2 : Int) ∣ 2147483646 ∨ (3 : Int) ∣ 2147483646)) ∧
    (Int.tmod (Int.tmod 2147483646 6) 4 ≠ 1 →
      (isPrime 2147483646 = true ↔ (2147483646 : Int) = 2 ∨ (2147483646 : Int) = 3))) :=
  ⟨by decide, fast_path_result 2147483646 (by decide)⟩

/-- C13: every `n ≤ 3` satisfies the guard of the fast path, so `isPrime`
returns `(n | 1) == 3` without entering the witness loop, and the result is
`true` exactly for `n = 2` and `n = 3`. -/
theorem small_inputs_fast_path (n : Int) (h : n ≤ 3) :
    onFastPath n ∧ isPrime n = decide (Int.lor n 1 = 3) ∧
      (isPrime n = true ↔ n = 2 ∨ n = 3) := by
  have hf : onFastPath n := by
    unfold onFastPath
    by_cases h2 : n < 2
    · exact Or.inl h2
    · right
      have : n = 2 ∨ n = 3 := by omega
      rcases this with rfl | rfl <;> decide
  exact ⟨hf, isPrime_of_onFastPath hf, isPrime_fast_iff hf⟩

theorem small_inputs_fast_path_witness :
    (-2147483648 : Int) ≤ 3 ∧
    (onFastPath (-2147483648) ∧
      isPrime (-2147483648) = decide (Int.lor (-2147483648) 1 = 3) ∧
      (isPrime (-2147483648) = true ↔ (-2147483648 : Int) = 2 ∨ (-2147483648 : Int) = 3)) :=
  ⟨by decide, small_inputs_fast_path (-2147483648) (by decide)⟩

/-! ### The decomposition `n - 1 = d * 2 ^ s` -/

theorem ctzAux_odd : ∀ (w x : Nat), x ≠ 0 → x < 2 ^ w →
    (x / 2 ^ ctzAux w x) % 2 = 1 := by
  intro w
  induction w with
  | zero =>
    intro x h0 h1
    simp at h1
    exact absurd h1 h0
  | succ w ih =>
    intro x h0 h1
    rw [ctzAux]
    by_cases h : x % 2 = 1
    · rw [if_pos h]
      simpa using h
    · rw [if_neg h, pow_succ, mul_comm, ← Nat.div_div_eq_div_mul]
      rw [pow_succ] at h1
      exact ih (x / 2) (by omega) (by omega)

theorem ctzAux_pos_of_even (w x : Nat) (h : x % 2 = 0) : 1 ≤ ctzAux (w + 1) x := by
  rw [ctzAux, if_neg (by omega)]
  omega

theorem shiftRight_pred_natCast (k : Nat) (h1 : 1 ≤ k) (s : Nat) :
    ((k : Int) - 1) >>> s = (((k - 1) / 2 ^ s : Nat) : Int) := by
  rw [Int.shiftRight_eq_div_pow]
  push_cast [Nat.cast_sub h1]
  rfl

/-- C17: an `int` `n ≥ 2` with `n % 6 % 4 == 1` is not handled by the fast
path; it is at least 5, odd and not divisible by 3, and the values
`s = ctz(n - 1)` and `d = (n - 1) >> s` handed to the witness loop satisfy
`n - 1 = d * 2 ^ s` with `d` odd and `s ≥ 1`. -/
theorem slow_path_decomposition (n : Int) (hn : n ≤ 2147483647) (h2 : 2 ≤ n)
    (hm : Int.tmod (Int.tmod n 6) 4 = 1) :
    ¬ onFastPath n ∧
    isPrime n = basesLoop n (ctz (n - 1)) ((n - 1) >>> ctz (n - 1)) [2, 3, 5, 7] ∧
    5 ≤ n ∧ n % 2 = 1 ∧ n % 3 ≠ 0 ∧
    n - 1 = ((n - 1) >>> ctz (n - 1)) * 2 ^ ctz (n - 1) ∧
    ((n - 1) >>> ctz (n - 1)) % 2 = 1 ∧ 1 ≤ ctz (n - 1) := by
  have hnf : ¬ onFastPath n := by
    unfold onFastPath
    rintro (h | h)
    · omega
    · exact h hm
  have e1 : Int.tmod n 6 = n % 6 := Int.tmod_eq_emod (by omega) (by norm_num)
  have e2 : Int.tmod (n % 6) 4 = n % 6 % 4 :=
    Int.tmod_eq_emod (Int.emod_nonneg _ (by norm_num)) (by norm_num)
  rw [e1, e2] at hm
  refine ⟨hnf, isPrime_of_not_onFastPath hnf, by omega, by omega, by omega, ?_⟩
  obtain ⟨k, rfl⟩ := Int.eq_ofNat_of_zero_le (by omega : 0 ≤ n)
  have hk5 : 5 ≤ k := by omega
  have hk : k ≤ 2147483647 := by exact_mod_cast hn
  rw [ctz_pred_natCast k (by omega) hk, shiftRight_pred_natCast k (by omega)]
  have hdvd := ctzAux_dvd 32 (k - 1)
  have hodd := ctzAux_odd 32 (k - 1) (by omega) (by
    have : (2 : Nat) ^ 32 = 4294967296 := by norm_num
    omega)
  have hpos := ctzAux_pos_of_even 31 (k - 1) (by omega)
  refine ⟨?_, ?_, hpos⟩
  · have hc : (((k - 1) / 2 ^ ctzAux 32 (k - 1) * 2 ^ ctzAux 32 (k - 1) : Nat) : Int)
        = ((k - 1 : Nat) : Int) := congrArg _ (Nat.div_mul_cancel hdvd)
    rw [Nat.cast_sub (by omega : 1 ≤ k), Nat.cast_mul, Nat.cast_pow] at hc
    exact hc.symm
  · exact_mod_cast hodd

theorem slow_path_decomposition_witness :
    (2147483647 : Int) ≤ 2147483647 ∧ (2 : Int) ≤ 2147483647 ∧
    Int.tmod (Int.tmod 2147483647 6) 4 = 1 ∧
    (¬ onFastPath 2147483647 ∧
    isPrime 2147483647
      = basesLoop 2147483647 (ctz ((2147483647 : Int) - 1))
          (((2147483647 : Int) - 1) >>> ctz ((2147483647 : Int) - 1)) [2, 3, 5, 7] ∧
    (5 : Int) ≤ 2147483647 ∧ (2147483647 : Int) % 2 = 1 ∧ (2147483647 : Int) % 3 ≠ 0 ∧
    (2147483647 : Int) - 1
      = (((2147483647 : Int) - 1) >>> ctz ((2147483647 : Int) - 1))
          * 2 ^ ctz ((2147483647 : Int) - 1) ∧
    (((2147483647 : Int) - 1) >>> ctz ((2147483647 : Int) - 1)) % 2 = 1 ∧
    1 ≤ ctz ((2147483647 : Int) - 1)) :=
  ⟨by decide, by decide, by decide,
    slow_path_decomposition 2147483647 (by decide) (by decide) (by decide)⟩

/-! ### The sizes of the sub-ranges -/

theorem bound_step (D : Int) (i : Nat) (hi8 : i < 8) :
    D * ((i : Int) + 1) / 8 - D * (i : Int) / 8 = D / 8 ∨
    (D % 8 ≠ 0 ∧ D * ((i : Int) + 1) / 8 - D * (i : Int) / 8 = D / 8 + 1) := by
  interval_cases i <;> push_cast <;> omega

theorem thread_size_cases (lo hi : Int) (i : Nat) (hlo : 1 ≤ lo) (hle : lo ≤ hi)
    (hhi : hi ≤ 2147483647) (hsz : (hi - lo) * 8 ≤ 2147483647) (hi8 : i < 8) :
    threadHi lo hi i - threadLo lo hi i = (hi - lo) / 8 ∨
    ((hi - lo) % 8 ≠ 0 ∧ threadHi lo hi i - threadLo lo hi i = (hi - lo) / 8 + 1) := by
  rw [threadLo_eq lo hi i hlo hle hhi hsz hi8, threadHi_eq lo hi i hlo hle hhi hsz hi8]
  have := bound_step (hi - lo) i hi8
  omega

/-- C18: for `1 ≤ lo ≤ hi` with `(hi - lo) * 8 ≤ 2^31 - 1`, each of the eight
sub-ranges has `floor((hi - lo) / 8)` or `ceil((hi - lo) / 8)` elements, and
the sizes of any two sub-ranges differ by at most one. -/
theorem thread_sizes_balanced (lo hi : Int) (hlo : 1 ≤ lo) (hle : lo ≤ hi)
    (hhi : hi ≤ 2147483647) (hsz : (hi - lo) * 8 ≤ 2147483647) :
    (∀ i, i < 8 →
      threadHi lo hi i - threadLo lo hi i = (hi - lo) / 8 ∨
      threadHi lo hi i - threadLo lo hi i = (hi - lo + 7) / 8) ∧
    (∀ i j, i < 8 → j < 8 →
      threadHi lo hi i - threadLo lo hi i ≤ threadHi lo hi j - threadLo lo hi j + 1) := by
  constructor
  · intro i hi8
    rcases thread_size_cases lo hi i hlo hle hhi hsz hi8 with h | ⟨hr, h⟩
    · exact Or.inl h
    · right
      rw [h]
      omega
  · intro i j hi8 hj8
    have h1 := thread_size_cases lo hi i hlo hle hhi hsz hi8
    have h2 := thread_size_cases lo hi j hlo hle hhi hsz hj8
    omega

theorem thread_sizes_balanced_witness :
    (1 : Int) ≤ 1 ∧ (1 : Int) ≤ 30 ∧ (30 : Int) ≤ 2147483647 ∧
    ((30 : Int) - 1) * 8 ≤ 2147483647 ∧
    ((∀ i, i < 8 →
      threadHi 1 30 i - threadLo 1 30 i = ((30 : Int) - 1) / 8 ∨
      threadHi 1 30 i - threadLo 1 30 i = ((30 : Int) - 1 + 7) / 8) ∧
    (∀ i j, i < 8 → j < 8 →
      threadHi 1 30 i - threadLo 1 30 i ≤ threadHi 1 30 j - threadLo 1 30 j + 1)) :=
  ⟨by decide, by decide, by decide, by decide,
    thread_sizes_balanced 1 30 (by decide) (by decide) (by decide) (by decide)⟩

/-! ### The tracker under arbitrary offers -/

theorem TopInv_sorted {st : Shared} {M : List Nat} (h : TopInv st M) :
    st.top10Primes.Sorted (· ≤ ·) := by
  obtain ⟨_, _, low, hlow⟩ := h
  have hs : (low ++ st.top10Primes).Sorted (· ≤ ·) := by
    rw [← hlow]
    exact List.sorted_insertionSort _ _
  exact (List.pairwise_append.mp hs).2.1

theorem foldl_offer_TopInv : ∀ (vs : List Nat) (st : Shared) (M : List Nat),
    TopInv st M → TopInv (vs.foldl offer st) (vs.reverse ++ M) := by
  intro vs
  induction vs with
  | nil => intro st M h; exact h
  | cons v vs ih =>
    intro st M h
    rw [List.foldl_cons, List.reverse_cons, List.append_assoc]
    exact ih (offer st v) (v :: M) (TopInv_offer h v)

/-- C14: starting from ten zeros with cached minimum 0, after any finite
sequence of offers the vector has exactly ten entries, is sorted in ascending
order, and the cached minimum `top10Min` equals its entry 0. -/
theorem offers_preserve_invariant (vs : List Nat) :
    initShared.top10Primes = List.replicate 10 0 ∧ initShared.top10Min = 0 ∧
    (vs.foldl offer initShared).top10Primes.length = 10 ∧
    (vs.foldl offer initShared).top10Primes.Sorted (· ≤ ·) ∧
    (vs.foldl offer initShared).top10Min
      = (vs.foldl offer initShared).top10Primes.getD 0 0 := by
  have h := foldl_offer_TopInv vs initShared _ TopInv_init
  exact ⟨rfl, rfl, h.1, TopInv_sorted h, h.2.1⟩

theorem lockedInsert_of_le (h v : Nat) (T : List Nat) (hs : (h :: T).Sorted (· ≤ ·))
    (hv : v ≤ h) : lockedInsert (h :: T) v = h :: T := by
  unfold lockedInsert
  have e : List.insertionSort (· ≤ ·) (h :: T ++ [v]) = v :: h :: T := by
    have hsorted : (v :: h :: T).Sorted (· ≤ ·) := List.Sorted.cons hv hs
    apply List.eq_of_perm_of_sorted _ (List.sorted_insertionSort _ _) hsorted
    refine (List.perm_insertionSort _ _).trans ?_
    refine List.perm_append_comm.trans ?_
    simp only [List.singleton_append]
    exact List.Perm.refl _
  rw [e]
  rfl

theorem getD_zero_mem {l : List Nat} (h : l ≠ []) : l.getD 0 0 ∈ l := by
  cases l with
  | nil => exact absurd rfl h
  | cons a l => exact List.mem_cons_self _ _

theorem exists_cons_of_length_ten {t : List Nat} (hl : t.length = 10) :
    ∃ h T, t = h :: T ∧ T.length = 9 := by
  cases t with
  | nil => simp at hl
  | cons a b => exact ⟨a, b, rfl, by simpa using hl⟩

theorem lockedInsert_ge (h v : Nat) (T : List Nat) (hs : (h :: T).Sorted (· ≤ ·))
    (hv : h < v) : ∀ x ∈ lockedInsert (h :: T) v, h ≤ x := by
  rw [lockedInsert_of_lt h v T hs hv]
  intro x hx
  rcases (List.mem_orderedInsert (· ≤ ·)).mp hx with rfl | hx'
  · omega
  · exact List.rel_of_sorted_cons hs x hx'

/-- C15: on a sorted ten-element vector, the locked insertion step, for any
value `v`, leaves a vector whose entry 0 (the new cached minimum) is at least
the previous entry 0. -/
theorem threshold_never_decreases (t : List Nat) (v : Nat) (hs : t.Sorted (· ≤ ·))
    (hl : t.length = 10) : t.getD 0 0 ≤ (lockedInsert t v).getD 0 0 := by
  obtain ⟨h, T, rfl, hT⟩ := exists_cons_of_length_ten hl
  rw [List.getD_cons_zero]
  by_cases hv : v ≤ h
  · rw [lockedInsert_of_le h v T hs hv, List.getD_cons_zero]
  · have hlt : h < v := by omega
    apply lockedInsert_ge h v T hs hlt
    apply getD_zero_mem
    rw [lockedInsert_of_lt h v T hs hlt]
    intro hnil
    have := List.orderedInsert_length (· ≤ ·) T v
    rw [hnil] at this
    simp at this

theorem threshold_never_decreases_witness :
    [2, 3, 5, 7, 11, 13, 17, 19, 23, 29].Sorted (· ≤ ·) ∧
    [2, 3, 5, 7, 11, 13, 17, 19, 23, 29].length = 10 ∧
    [2, 3, 5, 7, 11, 13, 17, 19, 23, 29].getD 0 0
      ≤ (lockedInsert [2, 3, 5, 7, 11, 13, 17, 19, 23, 29] 31).getD 0 0 :=
  ⟨by decide, by decide,
    threshold_never_decreases [2, 3, 5, 7, 11, 13, 17, 19, 23, 29] 31 (by decide) (by decide)⟩

/-- C16: on a sorted ten-element vector `t`, the locked insertion step as
coded, with no comparison under the lock, leaves the vector and its entry 0
unchanged when `v ≤ t[0]`; when `v > t[0]` it removes `t[0]` and leaves the
other nine entries together with `v`, in ascending order, all at least
`t[0]`. -/
theorem locked_insert_effect (t : List Nat) (v : Nat) (hs : t.Sorted (· ≤ ·))
    (hl : t.length = 10) :
    (v ≤ t.getD 0 0 →
      lockedInsert t v = t ∧ (lockedInsert t v).getD 0 0 = t.getD 0 0) ∧
    (t.getD 0 0 < v →
      (lockedInsert t v).Sorted (· ≤ ·) ∧ (lockedInsert t v).length = 10 ∧
      (t.getD 0 0 :: lockedInsert t v).Perm (v :: t) ∧
      ∀ x ∈ lockedInsert t v, t.getD 0 0 ≤ x) := by
  obtain ⟨h, T, rfl, hT⟩ := exists_cons_of_length_ten hl
  rw [List.getD_cons_zero]
  constructor
  · intro hv
    rw [lockedInsert_of_le h v T hs hv]
    exact ⟨rfl, rfl⟩
  · intro hv
    refine ⟨?_, ?_, ?_, lockedInsert_ge h v T hs hv⟩
    · rw [lockedInsert_of_lt h v T hs hv]
      exact List.Sorted.orderedInsert v T hs.tail
    · rw [lockedInsert_of_lt h v T hs hv, List.orderedInsert_length, hT]
    · rw [lockedInsert_of_lt h v T hs hv]
      exact (List.Perm.cons h (List.perm_orderedInsert _ v T)).trans (List.Perm.swap v h T)

theorem locked_insert_effect_witness :
    [2, 3, 5, 7, 11, 13, 17, 19, 23, 29].Sorted (· ≤ ·) ∧
    [2, 3, 5, 7, 11, 13, 17, 19, 23, 29].length = 10 ∧
    ((2 ≤ [2, 3, 5, 7, 11, 13, 17, 19, 23, 29].getD 0 0 →
      lockedInsert [2, 3, 5, 7, 11, 13, 17, 19, 23, 29] 2
        = [2, 3, 5, 7, 11, 13, 17, 19, 23, 29] ∧
      (lockedInsert [2, 3, 5, 7, 11, 13, 17, 19, 23, 29] 2).getD 0 0
        = [2, 3, 5, 7, 11, 13, 17, 19, 23, 29].getD 0 0) ∧
    ([2, 3, 5, 7, 11, 13, 17, 19, 23, 29].getD 0 0 < 2 →
      (lockedInsert [2, 3, 5, 7, 11, 13, 17, 19, 23, 29] 2).Sorted (· ≤ ·) ∧
      (lockedInsert [2, 3, 5, 7, 11, 13, 17, 19, 23, 29] 2).length = 10 ∧
      ([2, 3, 5, 7, 11, 13, 17, 19, 23, 29].getD 0 0
          :: lockedInsert [2, 3, 5, 7, 11, 13, 17, 19, 23, 29] 2).Perm
        (2 :: [2, 3, 5, 7, 11, 13, 17, 19, 23, 29]) ∧
      ∀ x ∈ lockedInsert [2, 3, 5, 7, 11, 13, 17, 19, 23, 29] 2,
        [2, 3, 5, 7, 11, 13, 17, 19, 23, 29].getD 0 0 ≤ x)) :=
  ⟨by decide, by decide,
    locked_insert_effect [2, 3, 5, 7, 11, 13, 17, 19, 23, 29] 2 (by decide) (by decide)⟩

/-! ### The accumulators never wrap -/

theorem two_le_of_isPrime {x : Int} (h : isPrime x = true) : 2 ≤ x := by
  by_contra hlt
  have hf : onFastPath x := Or.inl (by omega)
  have := (isPrime_fast_iff hf).mp h
  omega

theorem toUInt64_of_isPrime {x : Int} (h : isPrime x = true) (hx : x ≤ 2147483647) :
    toUInt64 x = x.toNat :=
  toUInt64_of_nonneg (by have := two_le_of_isPrime h; omega) hx

/-- Counter and sum after scanning a list of `int` values, as long as the
number and the sum of the accepted values stay in the range of their type. -/
theorem foldl_scanBody_exact : ∀ (xs : List Int) (st : Shared),
    (∀ x ∈ xs, x ≤ 2147483647) → 0 ≤ st.primeCount →
    st.primeCount + ((xs.filter isPrime).length : Int) ≤ 2147483647 →
    st.primeSum + ((xs.filter isPrime).map Int.toNat).sum < 18446744073709551616 →
    (xs.foldl scanBody st).primeCount
        = st.primeCount + ((xs.filter isPrime).length : Int) ∧
    (xs.foldl scanBody st).primeSum
        = st.primeSum + ((xs.filter isPrime).map Int.toNat).sum := by
  intro xs
  induction xs with
  | nil => intro st _ _ _ _; simp
  | cons x xs ih =>
    intro st hx hc0 hc hs
    have hx0 := hx x (List.mem_cons_self _ _)
    have hxs : ∀ y ∈ xs, y ≤ 2147483647 := fun y hy => hx y (List.mem_cons_of_mem _ hy)
    rw [List.foldl_cons]
    by_cases hp : isPrime x = true
    · rw [List.filter_cons_of_pos hp] at hc hs ⊢
      simp only [List.length_cons, List.map_cons, List.sum_cons, Nat.cast_add,
        Nat.cast_one] at hc hs ⊢
      have hcnt : (scanBody st x).primeCount = st.primeCount + 1 := by
        unfold scanBody
        rw [if_pos hp, offer_primeCount]
        exact toInt32_of_isInt32 ⟨by omega, by omega⟩
      have hsum : (scanBody st x).primeSum = st.primeSum + x.toNat := by
        unfold scanBody
        rw [if_pos hp, offer_primeSum, toUInt64_of_isPrime hp hx0]
        exact Nat.mod_eq_of_lt (by omega)
      obtain ⟨h1, h2⟩ := ih (scanBody st x) hxs (by omega) (by omega) (by omega)
      rw [h1, h2, hcnt, hsum]
      constructor <;> omega
    · have hst : scanBody st x = st := by
        unfold scanBody
        rw [if_neg hp]
      rw [List.filter_cons_of_neg hp] at hc hs ⊢
      rw [hst]
      exact ih st hxs hc0 hc hs

theorem acceptedIn_of_le_two {lo hi : Int} (h : hi ≤ 2) : acceptedIn lo hi = [] := by
  unfold acceptedIn
  rw [List.map_eq_nil_iff, List.filter_eq_nil_iff]
  intro x hx hp
  have h1 := mem_intRange.mp hx
  have h2 := two_le_of_isPrime hp
  omega

theorem acceptedIn_eq_from_two {lo hi : Int} (hlo : lo ≤ 2) :
    acceptedIn lo hi = acceptedIn 2 hi := by
  by_cases h : hi ≤ 2
  · rw [acceptedIn_of_le_two h, acceptedIn_of_le_two h]
  · rw [acceptedIn_append hlo (by omega : (2 : Int) ≤ hi), acceptedIn_of_le_two (le_refl 2)]
    rfl

theorem acceptedIn_length_le (lo hi : Int) (hlo : 2 ≤ lo) :
    (acceptedIn lo hi).length ≤ (hi - 2).toNat := by
  unfold acceptedIn
  rw [List.length_map]
  refine le_trans (List.length_filter_le _ _) ?_
  rw [intRange_length]
  omega

theorem acceptedIn_lt (lo hi : Int) (hhi : hi ≤ 2147483647) :
    ∀ v ∈ acceptedIn lo hi, v ≤ 2147483646 := by
  intro v hv
  unfold acceptedIn at hv
  obtain ⟨x, hx, rfl⟩ := List.mem_map.mp hv
  have := mem_intRange.mp (List.mem_of_mem_filter hx)
  omega

theorem acceptedIn_bounds (lo hi : Int) (hhi : hi ≤ 2147483647) :
    (acceptedIn lo hi).length ≤ 2147483645 ∧
    (acceptedIn lo hi).sum ≤ 2147483645 * 2147483646 := by
  have hlen : (acceptedIn lo hi).length ≤ 2147483645 := by
    by_cases h : lo ≤ 2
    · rw [acceptedIn_eq_from_two h]
      have := acceptedIn_length_le 2 hi (le_refl 2)
      omega
    · have := acceptedIn_length_le lo hi (by omega)
      omega
  refine ⟨hlen, ?_⟩
  have hsum := List.sum_le_card_nsmul (acceptedIn lo hi) 2147483646 (acceptedIn_lt lo hi hhi)
  rw [smul_eq_mul] at hsum
  exact le_trans hsum (Nat.mul_le_mul_right _ hlen)

/-- The accumulators over one range: for every range `[lo, hi)` of 32-bit
`int`s, the exact sum of the values accepted by `isPrime` is below `2^64` and
their number fits in an `int`; scanning the range in any order, and in
particular by one `countPrimes` call, leaves exactly that sum in `primeSum`
and that number in `primeCount`. -/
theorem sum_never_wraps (lo hi : Int) (hlo : isInt32 lo) (hhi : isInt32 hi) :
    (acceptedIn lo hi).sum < 18446744073709551616 ∧
    (acceptedIn lo hi).length ≤ 2147483647 ∧
    (countPrimes initShared lo hi).primeSum = (acceptedIn lo hi).sum ∧
    (countPrimes initShared lo hi).primeCount = ((acceptedIn lo hi).length : Int) ∧
    ∀ xs : List Int, xs.Perm (intRange lo hi) →
      (xs.foldl scanBody initShared).primeSum = (acceptedIn lo hi).sum ∧
      (xs.foldl scanBody initShared).primeCount = ((acceptedIn lo hi).length : Int) := by
  have _ := hlo
  obtain ⟨hb1, hb2⟩ := acceptedIn_bounds lo hi hhi.2
  have key : ∀ xs : List Int, xs.Perm (intRange lo hi) →
      (xs.foldl scanBody initShared).primeSum = (acceptedIn lo hi).sum ∧
      (xs.foldl scanBody initShared).primeCount = ((acceptedIn lo hi).length : Int) := by
    intro xs hperm
    have hlen : (xs.filter isPrime).length = (acceptedIn lo hi).length := by
      rw [(hperm.filter isPrime).length_eq, filter_length_eq_acceptedIn]
    have hsum : ((xs.filter isPrime).map Int.toNat).sum = (acceptedIn lo hi).sum :=
      ((hperm.filter isPrime).map Int.toNat).sum_eq
    have hxs : ∀ x ∈ xs, x ≤ 2147483647 := by
      intro x hx
      have := mem_intRange.mp (hperm.mem_iff.mp hx)
      have := hhi.2
      omega
    obtain ⟨h1, h2⟩ := foldl_scanBody_exact xs initShared hxs (le_refl _)
      (by rw [hlen]; show (0 : Int) + _ ≤ _; omega)
      (by rw [hsum]; show 0 + _ < _; omega)
    rw [h1, h2, hlen, hsum]
    exact ⟨by show 0 + _ = _; omega, by show (0 : Int) + _ = _; omega⟩
  have hseq := key (intRange lo hi) (List.Perm.refl _)
  rw [← countPrimes_eq_foldl] at hseq
  exact ⟨by omega, by omega, hseq.1, hseq.2, key⟩

theorem sum_never_wraps_witness :
    isInt32 (-5) ∧ isInt32 100 ∧
    ((acceptedIn (-5) 100).sum < 18446744073709551616 ∧
    (acceptedIn (-5) 100).length ≤ 2147483647 ∧
    (countPrimes initShared (-5) 100).primeSum
      = (acceptedIn (-5) 100).sum ∧
    (countPrimes initShared (-5) 100).primeCount
      = ((acceptedIn (-5) 100).length : Int) ∧
    ∀ xs : List Int, xs.Perm (intRange (-5) 100) →
      (xs.foldl scanBody initShared).primeSum = (acceptedIn (-5) 100).sum ∧
      (xs.foldl scanBody initShared).primeCount
        = ((acceptedIn (-5) 100).length : Int)) :=
  ⟨⟨by decide, by decide⟩, ⟨by decide, by decide⟩,
    sum_never_wraps (-5) 100 ⟨by decide, by decide⟩ ⟨by decide, by decide⟩⟩

/-! ### The inner loop as the strong-probable-prime test -/

theorem pow_double_mod (a d n j : Nat) :
    a ^ (d * 2 ^ (j + 1)) % n = (a ^ (d * 2 ^ j) % n) * (a ^ (d * 2 ^ j) % n) % n := by
  rw [← Nat.mul_mod, ← pow_add, pow_succ]
  congr 2
  ring

/-- The inner loop started at index `i` on the value `a ^ (d * 2 ^ i) mod n`
runs to its end exactly when no squaring from index `i` on reaches 1 from a
value other than 1 and `n - 1`, and the last value is 1. -/
theorem innerLoopNat_iff (n s d a : Nat) :
    ∀ (k i : Nat), i + k = s →
      (innerLoopNat n s k i (a ^ (d * 2 ^ i) % n) = true ↔
        (∀ j, i ≤ j → j < s → a ^ (d * 2 ^ (j + 1)) % n = 1 →
          (a ^ (d * 2 ^ j) % n = 1 ∨ a ^ (d * 2 ^ j) % n = n - 1)) ∧
        (1 ≤ k → a ^ (d * 2 ^ s) % n = 1)) := by
  intro k
  induction k with
  | zero =>
    intro i hik
    rw [innerLoopNat]
    simp only [true_iff]
    exact ⟨fun j h1 h2 => by omega, fun h => by omega⟩
  | succ k ih =>
    intro i hik
    rw [innerLoopNat, ← pow_double_mod]
    by_cases c1 : a ^ (d * 2 ^ (i + 1)) % n = 1 ∧ a ^ (d * 2 ^ i) % n ≠ 1 ∧
        a ^ (d * 2 ^ i) % n ≠ n - 1
    · rw [if_pos c1]
      simp only [Bool.false_eq_true, false_iff]
      rintro ⟨h, _⟩
      rcases h i (le_refl i) (by omega) c1.1 with h1 | h1
      · exact c1.2.1 h1
      · exact c1.2.2 h1
    · rw [if_neg c1]
      by_cases c2 : i = s - 1 ∧ a ^ (d * 2 ^ (i + 1)) % n ≠ 1
      · rw [if_pos c2]
        simp only [Bool.false_eq_true, false_iff]
        rintro ⟨_, h⟩
        have hs : i + 1 = s := by omega
        rw [hs] at c2
        exact c2.2 (h (by omega))
      · rw [if_neg c2, ih (i + 1) (by omega)]
        have hPi : a ^ (d * 2 ^ (i + 1)) % n = 1 →
            (a ^ (d * 2 ^ i) % n = 1 ∨ a ^ (d * 2 ^ i) % n = n - 1) := by
          intro hy
          by_contra hcon
          rw [not_or] at hcon
          exact c1 ⟨hy, hcon.1, hcon.2⟩
        constructor
        · rintro ⟨h1, h2⟩
          refine ⟨fun j hj1 hj2 hy => ?_, fun _ => ?_⟩
          · by_cases hji : j = i
            · subst hji
              exact hPi hy
            · exact h1 j (by omega) hj2 hy
          · by_cases hk : 1 ≤ k
            · exact h2 hk
            · have hs : i + 1 = s := by omega
              by_contra hne
              rw [← hs] at hne
              exact c2 ⟨by omega, hne⟩
        · rintro ⟨h1, h2⟩
          exact ⟨fun j hj1 hj2 hy => h1 j (by omega) hj2 hy, fun _ => h2 (by omega)⟩

theorem pow_chain_one (n d a : Nat) (hn : 2 ≤ n) (j : Nat)
    (hj : a ^ (d * 2 ^ j) % n = 1) : ∀ m, j ≤ m → a ^ (d * 2 ^ m) % n = 1 := by
  intro m hm
  induction m with
  | zero =>
    have : j = 0 := by omega
    subst this
    exact hj
  | succ m ih =>
    by_cases h : j = m + 1
    · subst h
      exact hj
    · rw [pow_double_mod, ih (by omega)]
      exact Nat.mod_eq_of_lt (by omega)

theorem pred_sq_mod (n : Nat) (hn : 2 ≤ n) : (n - 1) * (n - 1) % n = 1 := by
  obtain ⟨m, rfl⟩ : ∃ m, n = m + 2 := ⟨n - 2, by omega⟩
  have e : (m + 2 - 1) * (m + 2 - 1) = 1 + (m + 2) * m := by
    simp only [Nat.add_sub_cancel, show m + 2 - 1 = m + 1 from rfl]
    ring
  rw [e, Nat.add_mul_mod_self_left]
  exact Nat.mod_eq_of_lt (by omega)

theorem chain_iff_strongProbablePrime (n s d a : Nat) (hn : 3 ≤ n) :
    ((∀ j, 0 ≤ j → j < s → a ^ (d * 2 ^ (j + 1)) % n = 1 →
        (a ^ (d * 2 ^ j) % n = 1 ∨ a ^ (d * 2 ^ j) % n = n - 1)) ∧
      a ^ (d * 2 ^ s) % n = 1) ↔ strongProbablePrime n s d a := by
  unfold strongProbablePrime
  constructor
  · rintro ⟨hP, hfin⟩
    have back : ∀ j, j ≤ s → a ^ (d * 2 ^ j) % n = 1 →
        (a ^ d % n = 1 ∨ ∃ r, r < j ∧ a ^ (d * 2 ^ r) % n = n - 1) := by
      intro j
      induction j with
      | zero =>
        intro _ h
        left
        simpa using h
      | succ j ih =>
        intro hj h
        rcases hP j (Nat.zero_le j) (by omega) h with h1 | h1
        · rcases ih (by omega) h1 with h2 | ⟨r, hr, h2⟩
          · exact Or.inl h2
          · exact Or.inr ⟨r, by omega, h2⟩
        · exact Or.inr ⟨j, by omega, h1⟩
    rcases back s (le_refl s) hfin with h | ⟨r, hr, h⟩
    · exact Or.inl h
    · exact Or.inr ⟨r, hr, h⟩
  · rintro (h0 | ⟨r, hr, hrv⟩)
    · have h0' : a ^ (d * 2 ^ 0) % n = 1 := by simpa using h0
      have hall := pow_chain_one n d a (by omega) 0 h0'
      exact ⟨fun j _ _ _ => Or.inl (hall j (Nat.zero_le j)), hall s (Nat.zero_le s)⟩
    · have hnext : a ^ (d * 2 ^ (r + 1)) % n = 1 := by
        rw [pow_double_mod, hrv]
        exact pred_sq_mod n (by omega)
      have hall := pow_chain_one n d a (by omega) (r + 1) hnext
      refine ⟨fun j _ hj hy => ?_, hall s (by omega)⟩
      rcases Nat.lt_trichotomy j r with hjr | hjr | hjr
      · have := pow_chain_one n d a (by omega) (j + 1) hy r (by omega)
        rw [hrv] at this
        omega
      · subst hjr
        exact Or.inr hrv
      · exact Or.inl (hall j (by omega))

theorem innerLoopNat_iff_strongProbablePrime (n s d a : Nat) (hn : 3 ≤ n) (hs : 1 ≤ s) :
    innerLoopNat n s s 0 (a ^ d % n) = true ↔ strongProbablePrime n s d a := by
  have h := innerLoopNat_iff n s d a s 0 (by omega)
  simp only [pow_zero, mul_one] at h
  rw [h, ← chain_iff_strongProbablePrime n s d a hn]
  constructor
  · rintro ⟨h1, h2⟩
    exact ⟨h1, h2 hs⟩
  · rintro ⟨h1, h2⟩
    exact ⟨h1, fun _ => h2⟩

/-- C20: for an odd `n ≥ 5` in the range of `int` with `n - 1 = d * 2 ^ s`,
`d` odd, `s ≥ 1`, and a base `1 < a < n`, the inner loop of `isPrime`,
started on `modpow(a, d, n)`, runs to its end without returning `false`
exactly when `a ^ d mod n = 1` or `a ^ (d * 2 ^ r) mod n = n - 1` for some
`r < s`. -/
theorem inner_loop_is_strong_test (n s d a : Nat) (hn5 : 5 ≤ n) (hn : n ≤ 2147483647)
    (hodd : n % 2 = 1) (hdec : n - 1 = d * 2 ^ s) (hd : d % 2 = 1) (hs : 1 ≤ s)
    (ha1 : 1 < a) (ha : a < n) :
    innerLoop (n : Int) s s 0 (modpow (a : Int) (d : Int) (n : Int)) = true ↔
      strongProbablePrime n s d a := by
  have _ := hodd
  have _ := hdec
  have _ := hd
  have _ := ha1
  have _ := ha
  rw [modpow_natCast a d n (by omega) hn, innerLoop_natCast n s (by omega) hn]
  exact innerLoopNat_iff_strongProbablePrime n s d a (by omega) hs

theorem inner_loop_is_strong_test_witness :
    5 ≤ 2047 ∧ 2047 ≤ 2147483647 ∧ 2047 % 2 = 1 ∧ 2047 - 1 = 1023 * 2 ^ 1 ∧
    1023 % 2 = 1 ∧ 1 ≤ 1 ∧ 1 < 2 ∧ 2 < 2047 ∧
    (innerLoop ((2047 : Nat) : Int) 1 1 0
        (modpow ((2 : Nat) : Int) ((1023 : Nat) : Int) ((2047 : Nat) : Int)) = true ↔
      strongProbablePrime 2047 1 1023 2) :=
  ⟨by decide, by decide, by decide, by decide, by decide, by decide, by decide, by decide,
    inner_loop_is_strong_test 2047 1 1023 2 (by decide) (by decide) (by decide) (by decide)
      (by decide) (by decide) (by decide) (by decide)⟩

/-! ### The returned sum on a range whose partition overflows -/

theorem spawnWorkers_overflow :
    spawnWorkers 1 268435457
      = [{ i := 1, hi := 33554433 }, { i := 33554433, hi := 67108865 },
         { i := 67108865, hi := 100663297 }, { i := 100663297, hi := 134217729 },
         { i := 134217729, hi := 167772161 }, { i := 167772161, hi := 201326593 },
         { i := 201326593, hi := 234881025 }, { i := 234881025, hi := -268435455 }] := by
  decide!

theorem pending_overflow : pending (spawnWorkers 1 268435457) = intRange 1 234881025 := by
  rw [spawnWorkers_overflow]
  simp only [pending, List.map_cons, List.map_nil, List.flatten_cons, List.flatten_nil,
    List.append_nil]
  rw [intRange_of_le (by decide : (-268435455 : Int) ≤ 234881025), List.append_nil,
    @intRange_append 167772161 201326593 234881025 (by decide) (by decide),
    @intRange_append 134217729 167772161 234881025 (by decide) (by decide),
    @intRange_append 100663297 134217729 234881025 (by decide) (by decide),
    @intRange_append 67108865 100663297 234881025 (by decide) (by decide),
    @intRange_append 33554433 67108865 234881025 (by decide) (by decide),
    @intRange_append 1 33554433 234881025 (by decide) (by decide)]

theorem le_sum_acceptedIn {lo hi x : Int} (h1 : lo ≤ x) (h2 : x < hi)
    (hp : isPrime x = true) : x.toNat ≤ (acceptedIn lo hi).sum := by
  apply List.le_sum_of_mem
  unfold acceptedIn
  exact List.mem_map.mpr ⟨x, List.mem_filter.mpr ⟨mem_intRange.mpr ⟨h1, h2⟩, hp⟩, rfl⟩

theorem acceptedIn_sum_append {a b c : Int} (hab : a ≤ b) (hbc : b ≤ c) :
    (acceptedIn a c).sum = (acceptedIn a b).sum + (acceptedIn b c).sum := by
  rw [acceptedIn_append hab hbc, List.sum_append]

theorem lt_of_missing_part {r e a b x : Nat} (hr : r = a) (he : e = a + b) (hx : x ≤ b)
    (hpos : 0 < x) : r < e := by
  omega

theorem parallel_sum_eq_foldl (sched : List Nat) (lo hi : Int) :
    ∃ xs : List Int, xs.Perm (pending (spawnWorkers lo hi)) ∧
      (parallelCountPrimes sched lo hi).2.1 = (xs.foldl scanBody initShared).primeSum := by
  obtain ⟨xs, hperm, hfold⟩ := runSchedule_joinAll sched (spawnWorkers lo hi) initShared
  refine ⟨xs, hperm, ?_⟩
  unfold parallelCountPrimes
  simp only []
  rw [hfold]

/-- C19: the accumulator itself never wraps, but the sum returned is not
always the exact sum over `[lo, hi)`. For `lo = 1`, `hi = 268435457`, two
32-bit `int`s, under every schedule `parallelCountPrimes` returns the sum of
the values accepted in `[1, 234881025)` only: the values accepted in
`[234881025, 268435457)`, among them `268435399`, are missing, so the sum
returned is below the exact sum, which itself is below `2^64`. -/
theorem returned_sum_overflow (sched : List Nat) :
    isInt32 1 ∧ isInt32 268435457 ∧
    (parallelCountPrimes sched 1 268435457).2.1 = (acceptedIn 1 234881025).sum ∧
    (acceptedIn 1 268435457).sum
      = (acceptedIn 1 234881025).sum + (acceptedIn 234881025 268435457).sum ∧
    isPrime 268435399 = true ∧
    (268435399 : Int).toNat ≤ (acceptedIn 234881025 268435457).sum ∧
    (parallelCountPrimes sched 1 268435457).2.1 < (acceptedIn 1 268435457).sum ∧
    (acceptedIn 1 268435457).sum < 18446744073709551616 := by
  obtain ⟨xs, hperm, hres⟩ := parallel_sum_eq_foldl sched 1 268435457
  rw [pending_overflow] at hperm
  have hscan := ((sum_never_wraps 1 234881025 ⟨by decide, by decide⟩
    ⟨by decide, by decide⟩).2.2.2.2 xs hperm).1
  have hp : isPrime 268435399 = true := by decide!
  have hret := hres.trans hscan
  have hsplit := @acceptedIn_sum_append 1 234881025 268435457 (by decide) (by decide)
  have hskip := @le_sum_acceptedIn 234881025 268435457 268435399 (by decide) (by decide) hp
  have hbound := (acceptedIn_bounds 1 268435457 (by decide)).2
  exact ⟨⟨by decide, by decide⟩, ⟨by decide, by decide⟩, hret, hsplit, hp, hskip,
    lt_of_missing_part hret hsplit hskip (by decide),
    lt_of_le_of_lt hbound (by norm_num)⟩
end Assignment
